import Mathlib

/-!
# simple-vm: a shallow embedding of the assembler and the execution engine

Sources embedded here:

* `src/instructions/instructions.go`: the opcode table;
* `src/assembler/assembler.go`: `Assemble`;
* `src/main.go`: memory, registers, `sign_extend`, `load_into_memory` and the
  fetch/decode/execute loop of `main`.

Conventions.

* A Go `string` is a `List Char`.  The assembler only ever looks for the ASCII
  bytes of newline, space, sign and digit, none of which occurs inside a multi-byte
  UTF-8 sequence, so splitting and comparing by character agrees with splitting
  and comparing by byte.
* A `uint16` is a `Nat`; every operation that can leave the 16-bit range is
  followed by an explicit `% 65536`.
* A Go `int` is an `Int` (64-bit platform); bit operations on it are done on its
  two's-complement pattern, a `Nat` below `2 ^ 64`.
* A run-time panic of Go (index out of range, integer divide by zero) is an
  explicit error value.
-/

namespace SimpleVM

/-! ## Opcodes (`src/instructions/instructions.go`) -/

def OP_HALT : Nat := 0x0
def OP_LOADC : Nat := 0x1
def OP_MOVE : Nat := 0x2
def OP_LOADM : Nat := 0x3
def OP_STOREM : Nat := 0x4
def OP_JUMP : Nat := 0x5
def OP_ADD : Nat := 0x6
def OP_SUB : Nat := 0x7
def OP_MUL : Nat := 0x8
def OP_DIV : Nat := 0x9
def OP_NOT : Nat := 0xA
def OP_EQ : Nat := 0xB
def OP_LT : Nat := 0xC
def OP_LE : Nat := 0xD
def OP_DBG : Nat := 0xE

/-! ## Go integer conversions -/

/-- The conversion `uint16(i)` of a Go `int`: the low 16 bits of the
two's-complement pattern. -/
def uint16 (i : Int) : Nat := (i % 65536).toNat

/-- The two's-complement bit pattern of a 64-bit Go `int`. -/
def intBits (i : Int) : Nat := (i % 18446744073709551616).toNat

/-- The shift `x << k` on a 64-bit pattern: bits shifted past bit 63 are lost. -/
def shl64 (x k : Nat) : Nat := (x <<< k) % 18446744073709551616

/-! ## `strconv.Atoi` (Go standard library, 64-bit `int`)

The assembler discards the error result, so what matters is the integer that
comes back with it: `0` with a syntax error, the nearest bound of the `int` range
with a range error. -/

inductive NumError where
  | ErrSyntax
  | ErrRange
  deriving DecidableEq, Repr

/-- The loop of the fast path of `Atoi` (`n = n*10 + int(ch)`), taken for
strings of 1 to 18 bytes; `none` is the syntax error. -/
def atoiFastLoop : List Char → Nat → Option Nat
  | [], n => some n
  | ch :: s, n => if ch.isDigit then atoiFastLoop s (n * 10 + (ch.toNat - 48)) else none

/-- The loop of `strconv.ParseUint(s, 10, 64)`.  `cutoff` is `maxUint64/10 + 1`;
an overflow returns at once with `maxUint64` and a range error, whatever
follows. -/
def parseUintLoop : List Char → Nat → Nat × Option NumError
  | [], n => (n, none)
  | c :: s, n =>
    if c.isDigit then
      if n ≥ 18446744073709551615 / 10 + 1 then
        (18446744073709551615, some NumError.ErrRange)
      else
        let n10 := (n * 10) % 18446744073709551616
        let n1 := (n10 + (c.toNat - 48)) % 18446744073709551616
        if n1 < n10 ∨ n1 > 18446744073709551615 then
          (18446744073709551615, some NumError.ErrRange)
        else parseUintLoop s n1
    else (0, some NumError.ErrSyntax)

/-- The function `strconv.ParseUint(s, 10, 64)`. -/
def ParseUint (s : List Char) : Nat × Option NumError :=
  if s = [] then (0, some NumError.ErrSyntax) else parseUintLoop s 0

/-- The function `strconv.ParseInt(s, 10, 0)` with a 64-bit `int`. -/
def ParseInt (s : List Char) : Int × Option NumError :=
  match s with
  | [] => (0, some NumError.ErrSyntax)
  | c :: rest =>
    let neg : Bool := c = '-'
    let digits := if c = '+' ∨ c = '-' then rest else s
    match ParseUint digits with
    | (_, some NumError.ErrSyntax) => (0, some NumError.ErrSyntax)
    | (un, _) =>
      if neg = false ∧ un ≥ 9223372036854775808 then
        (9223372036854775807, some NumError.ErrRange)
      else if neg = true ∧ un > 9223372036854775808 then
        (-9223372036854775808, some NumError.ErrRange)
      else (if neg then -(un : Int) else (un : Int), none)

/-- The function `strconv.Atoi`: value and error. -/
def Atoi (s : List Char) : Int × Option NumError :=
  if 0 < s.length ∧ s.length < 19 then
    match s with
    | [] => (0, some NumError.ErrSyntax)
    | c :: rest =>
      let digits := if c = '-' ∨ c = '+' then rest else s
      if digits.length < 1 then (0, some NumError.ErrSyntax)
      else
        match atoiFastLoop digits 0 with
        | none => (0, some NumError.ErrSyntax)
        | some n => (if c = '-' then -(n : Int) else (n : Int), none)
  else ParseInt s

/-! ## The assembler (`src/assembler/assembler.go`) -/

/-- A run-time panic of the Go program. -/
inductive Panic where
  | indexOutOfRange
  | divideByZero
  deriving DecidableEq, Repr

deriving instance DecidableEq for Except

/-- The indexing `tokens[k]` of a Go slice. -/
def index (tokens : List (List Char)) (k : Nat) : Except Panic (List Char) :=
  match tokens.get? k with
  | some t => Except.ok t
  | none => Except.error Panic.indexOutOfRange

/-- The local state of `Assemble`: the slice `output`, the variable
`prog_start`, and the tokens printed by the `default` case. -/
structure AsmState where
  output : List Nat
  prog_start : Nat
  printed : List (List Char)
  deriving DecidableEq, Repr

/-- The body of the `for i, line := range lines` loop of `Assemble`. -/
def assembleLine (st : AsmState) (i : Nat) (line : List Char) : Except Panic AsmState := do
  let tokens := List.splitOn ' ' line
  let instr ← index tokens 0
  if line.length = 0 then
    pure st
  else if instr = "CONST".toList then
    let t1 ← index tokens 1
    let i := (Atoi t1).1
    pure { st with output := st.output ++ [0x0000 ||| uint16 i] }
  else if instr = "START".toList then
    pure { st with prog_start := i + 1 }
  else if instr = "LOADC".toList then
    let t1 ← index tokens 1
    let reg := (Atoi t1).1
    let t2 ← index tokens 2
    let val := (Atoi t2).1
    let op := (OP_LOADC <<< 12) ||| shl64 (intBits reg) 9 ||| intBits val
    pure { st with output := st.output ++ [op % 65536] }
  else if instr = "ADD".toList then
    let t1 ← index tokens 1
    let reg0 := (Atoi t1).1
    let t2 ← index tokens 2
    let reg1 := (Atoi t2).1
    let t3 ← index tokens 3
    let reg2 := (Atoi t3).1
    let op := (OP_ADD <<< 12) ||| shl64 (intBits reg0) 9 ||| (0 <<< 8)
      ||| shl64 (intBits reg1) 5 ||| intBits reg2
    pure { st with output := st.output ++ [op % 65536] }
  else if instr = "DBG".toList then
    let op := OP_DBG <<< 12
    pure { st with output := st.output ++ [op % 65536] }
  else if instr = "HALT".toList then
    let op := OP_HALT <<< 12
    pure { st with output := st.output ++ [op % 65536] }
  else
    pure { st with printed := st.printed ++ [instr] }

/-- The loop `for i, line := range lines`, from line index `i` on. -/
def assembleLoop : List (List Char) → Nat → AsmState → Except Panic AsmState
  | [], _, st => Except.ok st
  | line :: rest, i, st =>
    match assembleLine st i line with
    | Except.ok st1 => assembleLoop rest (i + 1) st1
    | Except.error e => Except.error e

/-- The last three statements of `Assemble`: append a word, shift the slice
right by one (`copy(output[1:], output)`), store the header in slot 0. -/
def insertHeader (output : List Nat) (prog_start : Nat) : List Nat :=
  let output1 := output ++ [0x0000]
  let output2 := output1.take 1 ++ output1.take (output1.length - 1)
  output2.set 0 (prog_start % 65536)

/-- The function `Assemble(code string) []uint16`. -/
def Assemble (code : List Char) : Except Panic (List Nat) :=
  match assembleLoop (List.splitOn '\n' code) 0 { output := [], prog_start := 0, printed := [] } with
  | Except.ok st => Except.ok (insertHeader st.output st.prog_start)
  | Except.error e => Except.error e

/-! ## Memory and registers (`src/main.go`) -/

def MEMORY_MAX : Nat := 1 <<< 16
def PARAMETER_SIZE : Nat := 12
def CONSTANT_POOL_OFFSET : Nat := 1

def R_R0 : Nat := 0x00
def R_R1 : Nat := 0x01
def R_R2 : Nat := 0x02
def R_R3 : Nat := 0x03
def R_R4 : Nat := 0x04
def R_R5 : Nat := 0x05
def R_R6 : Nat := 0x06
def R_R7 : Nat := 0x07
def R_PC : Nat := 0x08
def R_COND : Nat := 0x09
def R_MAR : Nat := 0x0A
def R_COUNT : Nat := 0x0B

def FL_POS : Nat := 1 <<< 0
def FL_ZRO : Nat := 1 <<< 1
def FL_NEG : Nat := 1 <<< 2

/-- What the process has written to standard output: a register dump of `DBG`
(`PC`, then `R0` to `R7`) or the report of an unknown opcode. -/
inductive Out where
  | dump (values : List Nat)
  | unknown (op : Nat)
  deriving DecidableEq, Repr

/-- Where the process is: inside the `for running` loop, past it after a
`HALT`, gone through `os.Exit(1)` on an unknown opcode, or dead of a panic. -/
inductive Status where
  | running
  | halted
  | unknownInstruction (op : Nat)
  | panicked (p : Panic)
  deriving DecidableEq, Repr

/-- The machine: the global arrays `memory` (indexed by a `uint16`) and `reg`
(`R_COUNT` cells), with the control state of `main` and its output. -/
structure VM where
  memory : Nat → Nat
  reg : Nat → Nat
  status : Status
  stdout : List Out

/-- A state all of whose cells hold 16-bit values, as the Go types guarantee. -/
def WF (s : VM) : Prop := (∀ a, s.memory a < 65536) ∧ (∀ r, s.reg r < 65536)

/-- The read `reg[r]` with a computed index: Go checks it against `R_COUNT`. -/
def regRead (s : VM) (r : Nat) : Except Panic Nat :=
  if r < R_COUNT then Except.ok (s.reg r) else Except.error Panic.indexOutOfRange

/-- The write `reg[r] = v` with a computed index. -/
def regWrite (s : VM) (r v : Nat) : Except Panic VM :=
  if r < R_COUNT then Except.ok { s with reg := Function.update s.reg r v }
  else Except.error Panic.indexOutOfRange

def lit_mem_write (s : VM) (address value : Nat) : VM :=
  { s with memory := Function.update s.memory address value }

def lit_mem_read (s : VM) (address : Nat) : Nat :=
  s.memory address

def map_mem_write (s : VM) (_address value : Nat) : VM :=
  { s with memory := Function.update s.memory (s.reg R_MAR) value }

def map_mem_read (s : VM) (address : Nat) : Nat :=
  s.memory ((s.reg R_MAR + address) % 65536)

def const_read (s : VM) (adress : Nat) : Nat :=
  s.memory ((adress + CONSTANT_POOL_OFFSET) % 65536)

/-- The function `sign_extend(x uint16, bit_count int) uint16`.  The mask
`0xFFFF << bit_count` is a `uint16`, so it is cut to 16 bits.  The engine calls
it with 5, 8 and 9; `bit_count = 0` (a negative shift count in Go) is outside
this model. -/
def sign_extend (x : Nat) (bit_count : Nat) : Nat :=
  if (x >>> (bit_count - 1)) &&& 1 = 1 then
    x ||| ((0xFFFF <<< bit_count) % 65536)
  else x

/-- The function `update_flags` (no instruction calls it). -/
def update_flags (s : VM) (r : Nat) : Except Panic VM := do
  let v ← regRead s r
  if v = 0 then
    return { s with reg := Function.update s.reg R_COND FL_ZRO }
  else if v >>> 15 = 1 then
    return { s with reg := Function.update s.reg R_COND FL_NEG }
  else
    return { s with reg := Function.update s.reg R_COND FL_POS }

/-- The loop of `load_into_memory`, from index `i` on: `memory[uint16(i)] = instruction`. -/
def loadFrom : List Nat → Nat → (Nat → Nat) → (Nat → Nat)
  | [], _, memory => memory
  | instruction :: rest, i, memory =>
    loadFrom rest (i + 1) (Function.update memory (i % 65536) instruction)

def load_into_memory (s : VM) (program : List Nat) : VM :=
  { s with memory := loadFrom program 0 s.memory }

/-! ## The execution loop of `main` -/

/-- The operand of `ADD`, `SUB`, `MUL`, `DIV`: `sign_extend(instr & 0x1F, 5)`
when `imm_flag == 1`, else `reg[instr & 0x7]`. -/
def arithOperand (instr : Nat) (s : VM) : Except Panic Nat :=
  let imm_flag := (instr >>> 8) &&& 0x1
  if imm_flag = 1 then
    Except.ok (sign_extend (instr &&& 0x1F) 5)
  else
    regRead s (instr &&& 0x7)

/-- The operand of `EQ`, `LT`, `LE`: `sign_extend(instr & 0xFF, 8)` when
`imm_flag == 1`, else `reg[instr & 0x7]`. -/
def cmpOperand (instr : Nat) (s : VM) : Except Panic Nat :=
  let imm_flag := (instr >>> 8) &&& 0x1
  if imm_flag = 1 then
    Except.ok (sign_extend (instr &&& 0xFF) 8)
  else
    regRead s (instr &&& 0x7)

/-- The statement `reg[R_PC]++`, on a `uint16`. -/
def incPC (s : VM) : VM :=
  { s with reg := Function.update s.reg R_PC ((s.reg R_PC + 1) % 65536) }

/-- The tail of the three comparison cases: `if !is_eq then reg[R_PC]++`. -/
def skipUnless (is_eq : Bool) (s : VM) : VM :=
  if is_eq then s else incPC s

/-- The `switch op` of the loop body, on the fetched word `instr`, in the state
after `reg[R_PC]++`. -/
def exec (instr : Nat) (s : VM) : Except Panic VM :=
  let op := instr >>> PARAMETER_SIZE
  if op = OP_HALT then
    Except.ok { s with status := Status.halted }
  else if op = OP_LOADC then
    let r1 := (instr >>> 9) &&& 0x7
    let c_offset := sign_extend (instr &&& 0x1FF) 9
    regWrite s r1 (const_read s c_offset)
  else if op = OP_MOVE then do
    let r1 := (instr >>> 9) &&& 0x7
    let r2 := (instr >>> 6) &&& 0x7
    let v ← regRead s r1
    regWrite s r2 v
  else if op = OP_LOADM then
    let r1 := (instr >>> 9) &&& 0x7
    let m_offset := sign_extend (instr &&& 0x1FF) 9
    regWrite s r1 (map_mem_read s m_offset)
  else if op = OP_STOREM then do
    let r1 := (instr >>> 9) &&& 0x7
    let m_offset := sign_extend (instr &&& 0x1FF) 9
    let v ← regRead s r1
    return map_mem_write s m_offset v
  else if op = OP_JUMP then
    let si := (instr >>> 11) &&& 0x1
    let offset := instr &&& 0x3FF
    if si = 0 then
      Except.ok { s with reg := Function.update s.reg R_PC ((s.reg R_PC + offset) % 65536) }
    else
      Except.ok { s with reg := Function.update s.reg R_PC ((s.reg R_PC + 65536 - offset) % 65536) }
  else if op = OP_ADD then do
    let dr := (instr >>> 9) &&& 0x7
    let r1 := (instr >>> 5) &&& 0x7
    let a ← regRead s r1
    let b ← arithOperand instr s
    regWrite s dr ((a + b) % 65536)
  else if op = OP_SUB then do
    let dr := (instr >>> 9) &&& 0x7
    let r1 := (instr >>> 5) &&& 0x7
    let a ← regRead s r1
    let b ← arithOperand instr s
    regWrite s dr ((a + 65536 - b % 65536) % 65536)
  else if op = OP_MUL then do
    let dr := (instr >>> 9) &&& 0x7
    let r1 := (instr >>> 5) &&& 0x7
    let a ← regRead s r1
    let b ← arithOperand instr s
    regWrite s dr ((a * b) % 65536)
  else if op = OP_DIV then do
    let dr := (instr >>> 9) &&& 0x7
    let r1 := (instr >>> 5) &&& 0x7
    let a ← regRead s r1
    let b ← arithOperand instr s
    if b = 0 then Except.error Panic.divideByZero
    else regWrite s dr (a / b)
  else if op = OP_NOT then do
    let dr := (instr >>> 9) &&& 0x7
    let sr := (instr >>> 6) &&& 0x7
    let v ← regRead s sr
    regWrite s dr (v ^^^ 0xFFFF)
  else if op = OP_EQ then do
    let r1 := (instr >>> 9) &&& 0x7
    let a ← regRead s r1
    let b ← cmpOperand instr s
    return skipUnless (a == b) s
  else if op = OP_LT then do
    let r1 := (instr >>> 9) &&& 0x7
    let a ← regRead s r1
    let b ← cmpOperand instr s
    return skipUnless (decide (a < b)) s
  else if op = OP_LE then do
    let r1 := (instr >>> 9) &&& 0x7
    let a ← regRead s r1
    let b ← cmpOperand instr s
    return skipUnless (decide (a < b)) s
  else if op = OP_DBG then
    Except.ok { s with stdout := s.stdout ++
      [Out.dump [s.reg R_PC, s.reg 0, s.reg 1, s.reg 2, s.reg 3, s.reg 4, s.reg 5, s.reg 6, s.reg 7]] }
  else
    Except.ok { s with status := Status.unknownInstruction op,
                       stdout := s.stdout ++ [Out.unknown op] }

/-- One pass through the body of `for running`: fetch at `reg[R_PC]`,
`reg[R_PC]++`, then the `switch`.  A process that has left the loop stays as it
is; a panic stops it in the state it had reached. -/
def step (s : VM) : VM :=
  match s.status with
  | Status.running =>
    let instr := lit_mem_read s (s.reg R_PC)
    let s1 := incPC s
    match exec instr s1 with
    | Except.ok s2 => s2
    | Except.error p => { s1 with status := Status.panicked p }
  | _ => s

/-- The loop `for running`, cut off after `fuel` passes. -/
def run : Nat → VM → VM
  | 0, s => s
  | fuel + 1, s =>
    match s.status with
    | Status.running => run fuel (step s)
    | _ => s

/-- The Go globals at process start: everything zero. -/
def powerOn : VM :=
  { memory := fun _ => 0, reg := fun _ => 0, status := Status.running, stdout := [] }

/-- The state of `main` on entering the loop: the program loaded at slot 0,
`reg[R_COND] = FL_ZRO`, `reg[R_PC] = memory[0x0000]`, `reg[R_MAR] = 0x1007`. -/
def boot (program : List Nat) : VM :=
  let s0 := load_into_memory powerOn program
  let s1 := { s0 with reg := Function.update s0.reg R_COND FL_ZRO }
  let s2 := { s1 with reg := Function.update s1.reg R_PC (s1.memory 0x0000) }
  { s2 with reg := Function.update s2.reg R_MAR 0x1007 }

/-- The function `main` on the text of the program file, with the loop cut off
after `fuel` passes. -/
def main (code : List Char) (fuel : Nat) : Except Panic VM :=
  match Assemble code with
  | Except.ok program => Except.ok (run fuel (boot program))
  | Except.error e => Except.error e

/-! # Vocabulary of the properties

The definitions above embed the source.  The definitions of this part are not
taken from it: they say, in the words of the properties to be proved, what a
line of source text is and emits, what the fields of a word are, what an
arithmetic or comparison word computes, and how a program text is written down.
The theorems relate the two.

## Reading a source line -/

/-- The tokens of a line: its pieces between single spaces. -/
def tokensOf (line : List Char) : List (List Char) := List.splitOn ' ' line

/-- The first token of a line; the empty text for the empty line. -/
def firstToken (line : List Char) : List Char := (tokensOf line).headD []

/-- The integer read from token `k` of a line. -/
def operand (line : List Char) (k : Nat) : Int := (Atoi ((tokensOf line).getD k [])).1

/-- The five mnemonics whose line emits a word. -/
def emittingMnemonics : List (List Char) :=
  ["CONST".toList, "LOADC".toList, "ADD".toList, "DBG".toList, "HALT".toList]

/-- A line emits a word when its first token is one of the five mnemonics. -/
def emits (line : List Char) : Bool := decide (firstToken line ∈ emittingMnemonics)

/-- The operand tokens a line needs are there: one for `CONST`, two for `LOADC`,
three for `ADD`. -/
def operandsPresent (line : List Char) : Prop :=
  (firstToken line = "CONST".toList → 2 ≤ (tokensOf line).length) ∧
  (firstToken line = "LOADC".toList → 3 ≤ (tokensOf line).length) ∧
  (firstToken line = "ADD".toList → 4 ≤ (tokensOf line).length)

/-- The word of a line, by its first token: the constant cut to 16 bits, the
packed `LOADC` or `ADD` word, `OP_DBG << 12`, `OP_HALT << 12`; no word for any
other line. -/
def emittedWord (line : List Char) : Option Nat :=
  if firstToken line = "CONST".toList then
    some (uint16 (operand line 1))
  else if firstToken line = "LOADC".toList then
    some (((OP_LOADC <<< 12) ||| shl64 (intBits (operand line 1)) 9
      ||| intBits (operand line 2)) % 65536)
  else if firstToken line = "ADD".toList then
    some (((OP_ADD <<< 12) ||| shl64 (intBits (operand line 1)) 9
      ||| shl64 (intBits (operand line 2)) 5 ||| intBits (operand line 3)) % 65536)
  else if firstToken line = "DBG".toList then
    some 0xE000
  else if firstToken line = "HALT".toList then
    some 0x0000
  else none

/-- The index the loop leaves in `prog_start`: one more than the line index of
the last `START` line, or the old value when there is none.  `i` is the index of
the first line of `lines`. -/
def startAfter : List (List Char) → Nat → Nat → Nat
  | [], _, p => p
  | line :: rest, i, p =>
    startAfter rest (i + 1) (if firstToken line = "START".toList then i + 1 else p)

instance (line : List Char) : Decidable (operandsPresent line) := by
  unfold operandsPresent
  infer_instance

/-- A non-empty line whose first token is `CONST` with fewer than 2 tokens,
`LOADC` with fewer than 3 tokens, or `ADD` with fewer than 4 tokens. -/
def lacksOperand (line : List Char) : Prop :=
  line ≠ [] ∧
  ((firstToken line = "CONST".toList ∧ (tokensOf line).length < 2) ∨
    (firstToken line = "LOADC".toList ∧ (tokensOf line).length < 3) ∨
    (firstToken line = "ADD".toList ∧ (tokensOf line).length < 4))

instance (line : List Char) : Decidable (lacksOperand line) := by
  unfold lacksOperand
  infer_instance

/-! ## Reading a word -/

/-- The conversion `int16(w)` of a `uint16`: the word read in two's complement. -/
def int16 (w : Nat) : Int := if w < 32768 then (w : Int) else (w : Int) - 65536

/-- Bits `hi` down to `lo` of a word, as a number. -/
def bits (w hi lo : Nat) : Nat := (w / 2 ^ lo) % 2 ^ (hi + 1 - lo)

/-- The top four bits of a 16-bit word. -/
def opcodeOf (w : Nat) : Nat := w / 2 ^ 12

/-- The operand of an arithmetic word: the sign-extended 5-bit immediate when
bit 8 is set, else the register named by bits 2 to 0. -/
def arithOperandOf (w : Nat) (s : VM) : Nat :=
  if bits w 8 8 = 1 then sign_extend (bits w 4 0) 5 else s.reg (bits w 2 0)

/-- The operand of a comparison word: the sign-extended 8-bit immediate when
bit 8 is set, else the register named by bits 2 to 0. -/
def cmpOperandOf (w : Nat) (s : VM) : Nat :=
  if bits w 8 8 = 1 then sign_extend (bits w 7 0) 8 else s.reg (bits w 2 0)

/-- The result of an arithmetic opcode on two 16-bit words: sum, difference
and product modulo `2 ^ 16`, the floor quotient for `DIV`. -/
def arithResult (op a b : Nat) : Nat :=
  if op = OP_ADD then (a + b) % 2 ^ 16
  else if op = OP_SUB then (((a : Int) - (b : Int)) % 2 ^ 16).toNat
  else if op = OP_MUL then (a * b) % 2 ^ 16
  else a / b

/-- The test of a comparison opcode: equality for `EQ`, unsigned less-than for
`LT` and for `LE`. -/
def cmpTest (op a b : Nat) : Bool :=
  if op = OP_EQ then a == b else decide (a < b)

/-- A running machine given by the memory cells and the registers that are not
zero: `cells` pairs an address with its word, `regs` lists the registers from
`R0` on. -/
def machine (cells : List (Nat × Nat)) (regs : List Nat) : VM :=
  { memory := fun a => (cells.lookup a).getD 0,
    reg := fun r => regs.getD r 0,
    status := Status.running,
    stdout := [] }

/-! ## Writing a program text -/

/-- The decimal numeral of an integer: the digits of its absolute value, after
a minus sign when it is negative. -/
def decimal : Int → List Char
  | Int.ofNat m => Nat.toDigits 10 m
  | Int.negSucc m => '-' :: Nat.toDigits 10 (m + 1)

/-- The number a string of decimal digits stands for, read from the left
starting from `acc`. -/
def digitsValue (acc : Nat) (l : List Char) : Nat :=
  l.foldl (fun a c => a * 10 + (c.toNat - 48)) acc

/-- A source line: the mnemonic and the decimal numerals of the operands, with
one space between neighbours. -/
def sourceLine (mnemonic : List Char) (operands : List Int) : List Char :=
  List.intercalate [' '] (mnemonic :: operands.map decimal)

/-- A source text: the lines with a newline between neighbours. -/
def sourceText (lines : List (List Char)) : List Char :=
  List.intercalate ['\n'] lines

/-- The lines of the constant-load program: a `CONST` line for each constant,
then `START`, `LOADC r j` and `HALT`. -/
def constLoadLines (vs : List Int) (r j : Nat) : List (List Char) :=
  vs.map (fun v => sourceLine "CONST".toList [v])
    ++ ["START".toList, sourceLine "LOADC".toList [(r : Int), (j : Int)], "HALT".toList]

/-- The text of the constant-load program. -/
def constLoadSource (vs : List Int) (r j : Nat) : List Char :=
  sourceText (constLoadLines vs r j)

/-- The text of a program of `CONST` lines only. -/
def constSource (vs : List Int) : List Char :=
  sourceText (vs.map (fun v => sourceLine "CONST".toList [v]))

/-! ## The subscripts of a pass -/

/-- The defined opcodes, `OP_HALT` to `OP_DBG`. -/
def definedOpcodes : List Nat :=
  [OP_HALT, OP_LOADC, OP_MOVE, OP_LOADM, OP_STOREM, OP_JUMP, OP_ADD, OP_SUB, OP_MUL, OP_DIV,
    OP_NOT, OP_EQ, OP_LT, OP_LE, OP_DBG]

/-- The indices with which one pass of the loop body on the word `instr`
subscripts `reg`: `R_PC` for the fetch and the increment, then the index
expressions of the case of `instr` in the `switch`, as the source writes them. -/
def registerIndices (instr : Nat) : List Nat :=
  let op := instr >>> PARAMETER_SIZE
  R_PC ::
    (if op = OP_LOADC then [(instr >>> 9) &&& 0x7]
    else if op = OP_MOVE then [(instr >>> 9) &&& 0x7, (instr >>> 6) &&& 0x7]
    else if op = OP_LOADM ∨ op = OP_STOREM then [(instr >>> 9) &&& 0x7, R_MAR]
    else if op = OP_ADD ∨ op = OP_SUB ∨ op = OP_MUL ∨ op = OP_DIV then
      ((instr >>> 9) &&& 0x7) :: ((instr >>> 5) &&& 0x7) ::
        (if (instr >>> 8) &&& 0x1 = 1 then [] else [instr &&& 0x7])
    else if op = OP_NOT then [(instr >>> 9) &&& 0x7, (instr >>> 6) &&& 0x7]
    else if op = OP_EQ ∨ op = OP_LT ∨ op = OP_LE then
      ((instr >>> 9) &&& 0x7) :: (if (instr >>> 8) &&& 0x1 = 1 then [] else [instr &&& 0x7])
    else if op = OP_DBG then [0, 1, 2, 3, 4, 5, 6, 7]
    else [])

/-- The indices with which one pass of the loop body on the word `instr`
subscripts `memory`, in the state `s` before the pass: `reg[R_PC]` in the
fetch, `adress + CONSTANT_POOL_OFFSET` in `const_read`, `reg[R_MAR] + address`
in `map_mem_read`, `reg[R_MAR]` in `map_mem_write`. -/
def memoryIndices (instr : Nat) (s : VM) : List Nat :=
  let op := instr >>> PARAMETER_SIZE
  s.reg R_PC ::
    (if op = OP_LOADC then
      [(sign_extend (instr &&& 0x1FF) 9 + CONSTANT_POOL_OFFSET) % 65536]
    else if op = OP_LOADM then [(s.reg R_MAR + sign_extend (instr &&& 0x1FF) 9) % 65536]
    else if op = OP_STOREM then [s.reg R_MAR]
    else [])


/-! # Theorems -/

/-! ## Lemmas on the assembler -/

theorem tokensOf_ne_nil (line : List Char) : tokensOf line ≠ [] :=
  List.splitOnP_ne_nil _ _

theorem tokensOf_nil : tokensOf [] = [[]] := rfl

theorem index_of_lt (tokens : List (List Char)) (k : Nat) (h : k < tokens.length) :
    index tokens k = Except.ok (tokens.getD k []) := by
  unfold index
  rw [List.get?_eq_getElem?, List.getD_eq_getElem?_getD, List.getElem?_eq_getElem h]
  rfl

theorem index_zero (line : List Char) :
    index (tokensOf line) 0 = Except.ok (firstToken line) := by
  unfold firstToken
  cases h : tokensOf line with
  | nil => exact absurd h (tokensOf_ne_nil line)
  | cons t ts => rfl

theorem emits_iff_isSome (line : List Char) : (emittedWord line).isSome = emits line := by
  unfold emittedWord emits emittingMnemonics
  by_cases h1 : firstToken line = "CONST".toList
  · rw [if_pos h1]; simp only [List.mem_cons, h1, true_or, decide_True, Option.isSome_some]
  by_cases h2 : firstToken line = "LOADC".toList
  · rw [if_neg h1, if_pos h2]
    simp only [List.mem_cons, h2, true_or, or_true, decide_True, Option.isSome_some]
  by_cases h3 : firstToken line = "ADD".toList
  · rw [if_neg h1, if_neg h2, if_pos h3]
    simp only [List.mem_cons, h3, true_or, or_true, decide_True, Option.isSome_some]
  by_cases h4 : firstToken line = "DBG".toList
  · rw [if_neg h1, if_neg h2, if_neg h3, if_pos h4]
    simp only [List.mem_cons, h4, true_or, or_true, decide_True, Option.isSome_some]
  by_cases h5 : firstToken line = "HALT".toList
  · rw [if_neg h1, if_neg h2, if_neg h3, if_neg h4, if_pos h5]
    simp only [List.mem_cons, h5, true_or, or_true, decide_True, Option.isSome_some]
  rw [if_neg h1, if_neg h2, if_neg h3, if_neg h4, if_neg h5]
  simp only [List.mem_cons, h1, h2, h3, h4, h5, List.mem_nil_iff, or_self, decide_False,
    Option.isSome_none, List.not_mem_nil]

/-- One pass of the loop body on a line with its operand tokens present: no
panic, the output grows by the word of the line if it has one. -/
theorem assembleLine_output (st : AsmState) (i : Nat) (line : List Char)
    (h : operandsPresent line) :
    ∃ st1, assembleLine st i line = Except.ok st1 ∧
      st1.output = st.output ++ (emittedWord line).toList ∧
      st1.prog_start = if firstToken line = "START".toList then i + 1 else st.prog_start := by
  obtain ⟨hc, hl, ha⟩ := h
  by_cases hline : line = []
  · subst hline
    exact ⟨st, rfl, by simp [emittedWord, firstToken, tokensOf_nil], by
      simp [firstToken, tokensOf_nil]⟩
  have hlen : ¬ line.length = 0 := by simpa using hline
  unfold assembleLine
  rw [show List.splitOn ' ' line = tokensOf line from rfl]
  simp only [index_zero, bind, Except.bind, pure, Except.pure, hlen, if_false]
  unfold emittedWord
  by_cases h1 : firstToken line = "CONST".toList
  · have := hc h1
    have hs : ¬ firstToken line = "START".toList := by rw [h1]; decide
    rw [if_neg hs]
    simp only [h1, if_true, index_of_lt _ 1 (by omega : 1 < (tokensOf line).length)]
    exact ⟨_, rfl, by simp [operand], rfl⟩
  by_cases h2 : firstToken line = "LOADC".toList
  · have := hl h2
    have hs : ¬ firstToken line = "START".toList := by rw [h2]; decide
    rw [if_neg hs]
    simp only [h1, hs, h2, if_true, if_false,
      index_of_lt _ 1 (by omega : 1 < (tokensOf line).length),
      index_of_lt _ 2 (by omega : 2 < (tokensOf line).length)]
    exact ⟨_, rfl, by simp [operand], rfl⟩
  by_cases h3 : firstToken line = "ADD".toList
  · have := ha h3
    have hs : ¬ firstToken line = "START".toList := by rw [h3]; decide
    rw [if_neg hs]
    simp only [h1, hs, h2, h3, if_true, if_false,
      index_of_lt _ 1 (by omega : 1 < (tokensOf line).length),
      index_of_lt _ 2 (by omega : 2 < (tokensOf line).length),
      index_of_lt _ 3 (by omega : 3 < (tokensOf line).length)]
    exact ⟨_, rfl, by simp [operand], rfl⟩
  by_cases hs : firstToken line = "START".toList
  · have h4 : ¬ firstToken line = "DBG".toList := by rw [hs]; decide
    have h5 : ¬ firstToken line = "HALT".toList := by rw [hs]; decide
    rw [if_pos hs]
    simp only [h1, hs, h2, h3, h4, h5, if_true, if_false]
    exact ⟨_, rfl, by simp, rfl⟩
  rw [if_neg hs]
  by_cases h4 : firstToken line = "DBG".toList
  · simp only [h1, hs, h2, h3, h4, if_true, if_false]
    exact ⟨_, rfl, by simp [OP_DBG], rfl⟩
  by_cases h5 : firstToken line = "HALT".toList
  · simp only [h1, hs, h2, h3, h4, h5, if_true, if_false]
    exact ⟨_, rfl, by simp [OP_HALT], rfl⟩
  simp only [h1, hs, h2, h3, h4, h5, if_true, if_false]
  exact ⟨_, rfl, by simp, rfl⟩

theorem insertHeader_eq (output : List Nat) (prog_start : Nat) :
    insertHeader output prog_start = (prog_start % 65536) :: output := by
  cases output with
  | nil => rfl
  | cons x xs => simp [insertHeader]

theorem assembleLoop_output (lines : List (List Char)) :
    ∀ (i : Nat) (st : AsmState), (∀ line ∈ lines, operandsPresent line) →
      ∃ st1, assembleLoop lines i st = Except.ok st1 ∧
        st1.output = st.output ++ lines.filterMap emittedWord ∧
        st1.prog_start = startAfter lines i st.prog_start := by
  induction lines with
  | nil => intro i st _; exact ⟨st, rfl, by simp, rfl⟩
  | cons line rest ih =>
    intro i st h
    obtain ⟨st1, h1, ho1, hp1⟩ := assembleLine_output st i line (h line (List.mem_cons_self _ _))
    obtain ⟨st2, h2, ho2, hp2⟩ := ih (i + 1) st1 (fun l hl => h l (List.mem_cons_of_mem _ hl))
    refine ⟨st2, ?_, ?_, ?_⟩
    · simp only [assembleLoop, h1, h2]
    · rw [ho2, ho1, List.filterMap_cons]
      cases emittedWord line <;> simp
    · rw [hp2, hp1, startAfter]

/-- The result of `Assemble` on a text whose lines have their operand tokens. -/
theorem Assemble_eq (code : List Char)
    (h : ∀ line ∈ List.splitOn '\n' code, operandsPresent line) :
    Assemble code = Except.ok ((startAfter (List.splitOn '\n' code) 0 0 % 65536) ::
      (List.splitOn '\n' code).filterMap emittedWord) := by
  obtain ⟨st, hst, hout, hps⟩ := assembleLoop_output (List.splitOn '\n' code) 0
    { output := [], prog_start := 0, printed := [] } h
  simp only [Assemble, hst, insertHeader_eq, hout, hps, List.nil_append]

theorem length_filterMap_emittedWord (lines : List (List Char)) :
    (lines.filterMap emittedWord).length = lines.countP emits := by
  induction lines with
  | nil => rfl
  | cons line rest ih =>
    have h := emits_iff_isSome line
    rw [List.filterMap_cons, List.countP_cons, ← h]
    cases hw : emittedWord line <;> simp [ih]

/-! ## Bit fields -/

theorem and_1 (x : Nat) : x &&& 0x1 = x % 2 := Nat.and_pow_two_sub_one_eq_mod x 1

theorem and_7 (x : Nat) : x &&& 0x7 = x % 8 := Nat.and_pow_two_sub_one_eq_mod x 3

theorem and_1F (x : Nat) : x &&& 0x1F = x % 32 := Nat.and_pow_two_sub_one_eq_mod x 5

theorem and_FF (x : Nat) : x &&& 0xFF = x % 256 := Nat.and_pow_two_sub_one_eq_mod x 8

theorem and_1FF (x : Nat) : x &&& 0x1FF = x % 512 := Nat.and_pow_two_sub_one_eq_mod x 9

theorem and_3FF (x : Nat) : x &&& 0x3FF = x % 1024 := Nat.and_pow_two_sub_one_eq_mod x 10

/-- The mask of `sign_extend`, cut to 16 bits. -/
theorem mask_eq (b : Nat) (hb : b ≤ 16) :
    (0xFFFF <<< b) % 65536 = 2 ^ b * (2 ^ (16 - b) - 1) := by
  interval_cases b <;> rfl

/-- The closed form of `sign_extend` on a `b`-bit field. -/
theorem sign_extend_eq (x b : Nat) (hb1 : 1 ≤ b) (hb2 : b ≤ 16) (hx : x < 2 ^ b) :
    sign_extend x b = if x < 2 ^ (b - 1) then x else x + 2 ^ b * (2 ^ (16 - b) - 1) := by
  have hpow : 2 ^ b = 2 * 2 ^ (b - 1) := by
    rw [← pow_succ']
    congr 1
    omega
  have hpos : 0 < 2 ^ (b - 1) := Nat.two_pow_pos _
  have hbit : (x >>> (b - 1)) &&& 1 = if x < 2 ^ (b - 1) then 0 else 1 := by
    rw [and_1, Nat.shiftRight_eq_div_pow]
    by_cases h : x < 2 ^ (b - 1)
    · rw [if_pos h, Nat.div_eq_of_lt h]
    · rw [if_neg h]
      have h1 : x / 2 ^ (b - 1) < 2 := by
        rw [Nat.div_lt_iff_lt_mul hpos]
        omega
      have h2 : 1 ≤ x / 2 ^ (b - 1) := by
        rw [Nat.le_div_iff_mul_le hpos]
        omega
      omega
  unfold sign_extend
  rw [hbit, mask_eq b hb2]
  by_cases h : x < 2 ^ (b - 1)
  · simp [h]
  · simp only [h, if_false, if_true]
    rw [Nat.lor_comm, ← Nat.mul_add_lt_is_or hx]
    omega

theorem sign_extend_5 (x : Nat) (hx : x < 32) :
    sign_extend x 5 = if x < 16 then x else x + 65504 := by
  rw [sign_extend_eq x 5 (by norm_num) (by norm_num) (by norm_num; exact hx)]
  norm_num

theorem sign_extend_8 (x : Nat) (hx : x < 256) :
    sign_extend x 8 = if x < 128 then x else x + 65280 := by
  rw [sign_extend_eq x 8 (by norm_num) (by norm_num) (by norm_num; exact hx)]
  norm_num

theorem sign_extend_9 (x : Nat) (hx : x < 512) :
    sign_extend x 9 = if x < 256 then x else x + 65024 := by
  rw [sign_extend_eq x 9 (by norm_num) (by norm_num) (by norm_num; exact hx)]
  norm_num

/-! ## Lemmas on the execution loop -/

theorem regRead_field (s : VM) (x : Nat) :
    regRead s (x &&& 0x7) = Except.ok (s.reg (x % 8)) := by
  unfold regRead R_COUNT
  rw [and_7]
  have : x % 8 < 11 := by omega
  simp [this]

theorem regWrite_field (s : VM) (x v : Nat) :
    regWrite s (x &&& 0x7) v = Except.ok { s with reg := Function.update s.reg (x % 8) v } := by
  unfold regWrite R_COUNT
  rw [and_7]
  have : x % 8 < 11 := by omega
  simp [this]

theorem incPC_reg (s : VM) (r : Nat) (h : r ≠ R_PC) : (incPC s).reg r = s.reg r := by
  simp [incPC, Function.update_noteq h]

theorem incPC_reg_field (s : VM) (x : Nat) : (incPC s).reg (x % 8) = s.reg (x % 8) :=
  incPC_reg s _ (by unfold R_PC; omega)

theorem incPC_reg_PC (s : VM) : (incPC s).reg R_PC = (s.reg R_PC + 1) % 65536 := by
  simp [incPC]

theorem arithOperand_eq (w : Nat) (s : VM) :
    arithOperand w (incPC s) = Except.ok (arithOperandOf w s) := by
  unfold arithOperand arithOperandOf bits
  simp only [and_1, and_1F, Nat.shiftRight_eq_div_pow, regRead_field, incPC_reg_field]
  norm_num
  split_ifs <;> rfl

theorem cmpOperand_eq (w : Nat) (s : VM) :
    cmpOperand w (incPC s) = Except.ok (cmpOperandOf w s) := by
  unfold cmpOperand cmpOperandOf bits
  simp only [and_1, and_FF, Nat.shiftRight_eq_div_pow, regRead_field, incPC_reg_field]
  norm_num
  split_ifs <;> rfl

/-- A pass of the loop in a running machine. -/
theorem step_running (s : VM) (h : s.status = Status.running) :
    step s = match exec (s.memory (s.reg R_PC)) (incPC s) with
      | Except.ok s2 => s2
      | Except.error p => { incPC s with status := Status.panicked p } := by
  unfold step
  rw [h]
  rfl

/-! ## `Atoi` on decimal numerals -/

theorem digitChar_isDigit (d : Nat) (h : d < 10) :
    (Nat.digitChar d).isDigit = true ∧ (Nat.digitChar d).toNat - 48 = d := by
  interval_cases d <;> decide

theorem isDigit_ne (c : Char) (h : c.isDigit = true) : c ≠ '-' ∧ c ≠ '+' ∧ c ≠ ' ' ∧ c ≠ '\n' := by
  refine ⟨?_, ?_, ?_, ?_⟩ <;> rintro rfl <;> exact absurd h (by decide)

theorem digitsValue_le (l : List Char) : ∀ acc, acc ≤ digitsValue acc l := by
  induction l with
  | nil => intro acc; exact le_refl _
  | cons c l ih =>
    intro acc
    have := ih (acc * 10 + (c.toNat - 48))
    simp only [digitsValue, List.foldl_cons] at this ⊢
    omega

theorem atoiFastLoop_digits (l : List Char) :
    ∀ acc, (∀ c ∈ l, c.isDigit = true) → atoiFastLoop l acc = some (digitsValue acc l) := by
  induction l with
  | nil => intro acc _; rfl
  | cons c l ih =>
    intro acc h
    have hc := h c (List.mem_cons_self _ _)
    rw [atoiFastLoop, if_pos hc, ih _ (fun x hx => h x (List.mem_cons_of_mem _ hx))]
    rfl

theorem parseUintLoop_digits (l : List Char) :
    ∀ acc, (∀ c ∈ l, c.isDigit = true) → digitsValue acc l < 18446744073709551616 →
      parseUintLoop l acc = (digitsValue acc l, none) := by
  induction l with
  | nil => intro acc _ _; rfl
  | cons c l ih =>
    intro acc h hv
    have hc := h c (List.mem_cons_self _ _)
    have hle := digitsValue_le l (acc * 10 + (c.toNat - 48))
    have hv1 : digitsValue (acc * 10 + (c.toNat - 48)) l < 18446744073709551616 := hv
    have hih := ih _ (fun x hx => h x (List.mem_cons_of_mem _ hx)) hv1
    rw [parseUintLoop, if_pos hc]
    have h1 : ¬ acc ≥ 18446744073709551615 / 10 + 1 := by omega
    rw [if_neg h1]
    have h2 : acc * 10 % 18446744073709551616 = acc * 10 := Nat.mod_eq_of_lt (by omega)
    have h3 : (acc * 10 + (c.toNat - 48)) % 18446744073709551616 = acc * 10 + (c.toNat - 48) :=
      Nat.mod_eq_of_lt (by omega)
    simp only [h2, h3]
    rw [if_neg (by omega), hih]
    rfl

theorem toDigitsCore_spec (fuel : Nat) :
    ∀ n ds, n < fuel → ∃ pre, Nat.toDigitsCore 10 fuel n ds = pre ++ ds ∧ pre ≠ [] ∧
      (∀ c ∈ pre, c.isDigit = true) ∧ digitsValue 0 pre = n := by
  induction fuel with
  | zero => intro n ds h; omega
  | succ fuel ih =>
    intro n ds h
    have hd := digitChar_isDigit (n % 10) (Nat.mod_lt _ (by norm_num))
    rw [Nat.toDigitsCore]
    by_cases h0 : n / 10 = 0
    · simp only [h0, if_true]
      refine ⟨[Nat.digitChar (n % 10)], rfl, by simp, ?_, ?_⟩
      · intro c hc
        rw [List.mem_singleton] at hc
        rw [hc]; exact hd.1
      · simp only [digitsValue, List.foldl_cons, List.foldl_nil, hd.2]
        omega
    · simp only [h0, if_false]
      obtain ⟨pre, hpre, hne, hdig, hval⟩ := ih (n / 10) (Nat.digitChar (n % 10) :: ds) (by omega)
      refine ⟨pre ++ [Nat.digitChar (n % 10)], by rw [hpre]; simp, by simp, ?_, ?_⟩
      · intro c hc
        rw [List.mem_append, List.mem_singleton] at hc
        rcases hc with hc | hc
        · exact hdig c hc
        · rw [hc]; exact hd.1
      · simp only [digitsValue, List.foldl_append, List.foldl_cons, List.foldl_nil, hd.2] at hval ⊢
        rw [hval]
        omega

theorem toDigits_spec (n : Nat) :
    Nat.toDigits 10 n ≠ [] ∧ (∀ c ∈ Nat.toDigits 10 n, c.isDigit = true) ∧
      digitsValue 0 (Nat.toDigits 10 n) = n := by
  obtain ⟨pre, hpre, hne, hdig, hval⟩ := toDigitsCore_spec (n + 1) n [] (by omega)
  rw [List.append_nil] at hpre
  rw [Nat.toDigits, hpre]
  exact ⟨hne, hdig, hval⟩

/-- `Atoi` on a non-empty string of digits of value below `2 ^ 63`. -/
theorem Atoi_digits (l : List Char) (hne : l ≠ []) (hdig : ∀ c ∈ l, c.isDigit = true)
    (hv : digitsValue 0 l < 9223372036854775808) :
    Atoi l = (((digitsValue 0 l : Nat) : Int), none) := by
  cases l with
  | nil => exact absurd rfl hne
  | cons c rest =>
    have hc := isDigit_ne c (hdig c (List.mem_cons_self _ _))
    unfold Atoi
    split_ifs with hlen
    · simp only [hc.1, hc.2.1, or_self, if_false, List.length_cons]
      rw [atoiFastLoop_digits _ _ hdig]
      simp
    · unfold ParseInt ParseUint
      simp only [hc.1, hc.2.1, or_self, if_false, decide_False]
      rw [parseUintLoop_digits _ _ hdig (by omega)]
      simp
      omega

/-- `Atoi` on a minus sign and a non-empty string of digits of value at most `2 ^ 63`. -/
theorem Atoi_neg_digits (l : List Char) (hne : l ≠ []) (hdig : ∀ c ∈ l, c.isDigit = true)
    (hv : digitsValue 0 l ≤ 9223372036854775808) :
    Atoi ('-' :: l) = (-((digitsValue 0 l : Nat) : Int), none) := by
  have hlen : 1 ≤ l.length := by
    cases l with
    | nil => exact absurd rfl hne
    | cons c rest => simp
  unfold Atoi
  split_ifs with h
  · simp only [true_or, if_true]
    rw [if_neg (by omega), atoiFastLoop_digits _ _ hdig]
  · unfold ParseInt ParseUint
    simp only [or_true, if_true, decide_True, hne, if_false]
    rw [parseUintLoop_digits _ _ hdig (by omega)]
    have h3 : ¬ digitsValue 0 l > 9223372036854775808 := by omega
    simp [h3]

theorem Atoi_decimal (v : Int) (h1 : -9223372036854775808 ≤ v) (h2 : v < 9223372036854775808) :
    Atoi (decimal v) = (v, none) := by
  cases v with
  | ofNat m =>
    obtain ⟨hne, hdig, hval⟩ := toDigits_spec m
    have hm : m < 9223372036854775808 := by
      have : (m : Int) < 9223372036854775808 := h2
      omega
    rw [decimal, Atoi_digits _ hne hdig (by rw [hval]; exact hm), hval]
    rfl
  | negSucc m =>
    obtain ⟨hne, hdig, hval⟩ := toDigits_spec (m + 1)
    have hm : m + 1 ≤ 9223372036854775808 := by
      have : -9223372036854775808 ≤ -((m : Int) + 1) := by rw [← Int.negSucc_eq]; exact h1
      omega
    rw [decimal, Atoi_neg_digits _ hne hdig (by rw [hval]; exact hm), hval]
    rfl

/-! ## Source lines built from a mnemonic and operands -/

theorem mem_intercalate {α : Type} (sep : List α) (ls : List (List α)) (x : α)
    (h : x ∈ List.intercalate sep ls) : x ∈ sep ∨ ∃ l ∈ ls, x ∈ l := by
  induction ls with
  | nil => simp [List.intercalate] at h
  | cons a rest ih =>
    cases rest with
    | nil =>
      simp [List.intercalate] at h
      exact Or.inr ⟨a, by simp, h⟩
    | cons b rest =>
      simp only [List.intercalate, List.intersperse, List.flatten_cons, List.mem_append] at h ih
      rcases h with h | h | h
      · exact Or.inr ⟨a, by simp, h⟩
      · exact Or.inl h
      · rcases ih h with h | ⟨l, hl, hx⟩
        · exact Or.inl h
        · exact Or.inr ⟨l, List.mem_cons_of_mem _ hl, hx⟩

theorem decimal_chars (v : Int) : ∀ c ∈ decimal v, c.isDigit = true ∨ c = '-' := by
  intro c hc
  cases v with
  | ofNat m => exact Or.inl ((toDigits_spec m).2.1 c hc)
  | negSucc m =>
    rw [decimal, List.mem_cons] at hc
    rcases hc with hc | hc
    · exact Or.inr hc
    · exact Or.inl ((toDigits_spec (m + 1)).2.1 c hc)

theorem space_not_mem_decimal (v : Int) : ' ' ∉ decimal v := by
  intro h
  rcases decimal_chars v _ h with h | h
  · exact absurd h (by decide)
  · exact absurd h (by decide)

theorem newline_not_mem_decimal (v : Int) : '\n' ∉ decimal v := by
  intro h
  rcases decimal_chars v _ h with h | h
  · exact absurd h (by decide)
  · exact absurd h (by decide)

theorem tokensOf_sourceLine (m : List Char) (ops : List Int) (hm : ' ' ∉ m) :
    tokensOf (sourceLine m ops) = m :: ops.map decimal := by
  unfold tokensOf sourceLine
  apply List.splitOn_intercalate
  · intro l hl
    rw [List.mem_cons, List.mem_map] at hl
    rcases hl with rfl | ⟨v, _, rfl⟩
    · exact hm
    · exact space_not_mem_decimal v
  · simp

theorem newline_not_mem_sourceLine (m : List Char) (ops : List Int) (hm : '\n' ∉ m) :
    '\n' ∉ sourceLine m ops := by
  intro h
  rcases mem_intercalate _ _ _ h with h | ⟨l, hl, hx⟩
  · exact absurd h (by decide)
  · rw [List.mem_cons, List.mem_map] at hl
    rcases hl with rfl | ⟨v, _, rfl⟩
    · exact hm hx
    · exact newline_not_mem_decimal v hx

theorem splitOn_sourceText (lines : List (List Char)) (hne : lines ≠ [])
    (h : ∀ l ∈ lines, '\n' ∉ l) : List.splitOn '\n' (sourceText lines) = lines :=
  List.splitOn_intercalate _ _ h hne

theorem firstToken_sourceLine (m : List Char) (ops : List Int) (hm : ' ' ∉ m) :
    firstToken (sourceLine m ops) = m := by
  rw [firstToken, tokensOf_sourceLine m ops hm]; rfl

theorem operand_sourceLine (m : List Char) (ops : List Int) (hm : ' ' ∉ m) (k : Nat)
    (v : Int) (hk : ops.get? k = some v)
    (h1 : -9223372036854775808 ≤ v) (h2 : v < 9223372036854775808) :
    operand (sourceLine m ops) (k + 1) = v := by
  rw [operand, tokensOf_sourceLine m ops hm, List.getD_cons_succ]
  have : (List.map decimal ops).getD k [] = decimal v := by
    rw [List.getD_eq_getElem?_getD, List.getElem?_map, ← List.get?_eq_getElem?, hk]
    rfl
  rw [this, Atoi_decimal v h1 h2]

/-! ## The words of `LOADC` and `ADD` lines -/

theorem or_eq_add (a b i : Nat) (ha : 2 ^ i ∣ a) (hb : b < 2 ^ i) : a ||| b = a + b := by
  obtain ⟨k, rfl⟩ := ha
  exact (Nat.mul_add_lt_is_or hb k).symm

theorem intBits_natCast (n : Nat) (h : n < 18446744073709551616) : intBits (n : Int) = n := by
  unfold intBits
  omega

theorem shl64_small (x k : Nat) (h : x * 2 ^ k < 18446744073709551616) :
    shl64 x k = x * 2 ^ k := by
  unfold shl64
  rw [Nat.shiftLeft_eq, Nat.mod_eq_of_lt h]

/-- The `LOADC` word for a register below 8 and an operand below 512. -/
theorem loadcWord_eq (r j : Nat) (hr : r < 8) (hj : j < 512) :
    ((OP_LOADC <<< 12) ||| shl64 (intBits (r : Int)) 9 ||| intBits (j : Int)) % 65536
      = 4096 + 512 * r + j := by
  rw [intBits_natCast r (by omega), intBits_natCast j (by omega), shl64_small r 9 (by omega)]
  have h1 : OP_LOADC <<< 12 = 4096 := rfl
  rw [h1, or_eq_add 4096 (r * 2 ^ 9) 12 (by norm_num) (by omega),
    or_eq_add (4096 + r * 2 ^ 9) j 9 ⟨8 + r, by ring⟩ (by omega)]
  omega

/-- The `ADD` word for three registers below 8. -/
theorem addWord_eq (r0 r1 r2 : Nat) (h0 : r0 < 8) (h1 : r1 < 8) (h2 : r2 < 8) :
    ((OP_ADD <<< 12) ||| shl64 (intBits (r0 : Int)) 9
      ||| shl64 (intBits (r1 : Int)) 5 ||| intBits (r2 : Int)) % 65536
      = 24576 + 512 * r0 + 32 * r1 + r2 := by
  rw [intBits_natCast r0 (by omega), intBits_natCast r1 (by omega), intBits_natCast r2 (by omega),
    shl64_small r0 9 (by omega), shl64_small r1 5 (by omega)]
  have h : OP_ADD <<< 12 = 24576 := rfl
  rw [h, or_eq_add 24576 (r0 * 2 ^ 9) 12 (by norm_num) (by omega),
    or_eq_add (24576 + r0 * 2 ^ 9) (r1 * 2 ^ 5) 9 ⟨48 + r0, by ring⟩ (by omega),
    or_eq_add (24576 + r0 * 2 ^ 9 + r1 * 2 ^ 5) r2 5 ⟨768 + 16 * r0 + r1, by ring⟩ (by omega)]
  omega

theorem Assemble_single (line : List Char) (hnl : '\n' ∉ line) (hop : operandsPresent line)
    (hs : firstToken line ≠ "START".toList) :
    Assemble line = Except.ok (0 :: (emittedWord line).toList) := by
  have hsplit : List.splitOn '\n' line = [line] := by
    have := splitOn_sourceText [line] (by simp) (by simpa using hnl)
    simpa [sourceText, List.intercalate] using this
  rw [Assemble_eq line (by rw [hsplit]; simpa using hop), hsplit]
  simp only [startAfter, if_neg hs, List.filterMap_cons, List.filterMap_nil]
  cases emittedWord line <;> rfl

theorem operandsPresent_sourceLine (m : List Char) (ops : List Int) (hm : ' ' ∉ m)
    (hc : m = "CONST".toList → 1 ≤ ops.length) (hl : m = "LOADC".toList → 2 ≤ ops.length)
    (ha : m = "ADD".toList → 3 ≤ ops.length) : operandsPresent (sourceLine m ops) := by
  unfold operandsPresent
  rw [firstToken_sourceLine m ops hm, tokensOf_sourceLine m ops hm]
  simp only [List.length_cons, List.length_map]
  exact ⟨fun h => by have := hc h; omega, fun h => by have := hl h; omega,
    fun h => by have := ha h; omega⟩

theorem emittedWord_LOADC (r j : Nat) (hr : r < 8) (hj : j < 512) :
    emittedWord (sourceLine "LOADC".toList [(r : Int), (j : Int)]) = some (4096 + 512 * r + j) := by
  have hm : ' ' ∉ "LOADC".toList := by decide
  unfold emittedWord
  rw [firstToken_sourceLine _ _ hm, if_neg (by decide), if_pos rfl,
    operand_sourceLine _ [(r : Int), (j : Int)] hm 0 (r : Int) rfl (by omega) (by omega),
    operand_sourceLine _ [(r : Int), (j : Int)] hm 1 (j : Int) rfl (by omega) (by omega),
    loadcWord_eq r j hr hj]

theorem emittedWord_ADD (r0 r1 r2 : Nat) (h0 : r0 < 8) (h1 : r1 < 8) (h2 : r2 < 8) :
    emittedWord (sourceLine "ADD".toList [(r0 : Int), (r1 : Int), (r2 : Int)])
      = some (24576 + 512 * r0 + 32 * r1 + r2) := by
  have hm : ' ' ∉ "ADD".toList := by decide
  unfold emittedWord
  rw [firstToken_sourceLine _ _ hm, if_neg (by decide), if_neg (by decide), if_pos rfl,
    operand_sourceLine _ [(r0 : Int), (r1 : Int), (r2 : Int)] hm 0 (r0 : Int) rfl (by omega) (by omega),
    operand_sourceLine _ [(r0 : Int), (r1 : Int), (r2 : Int)] hm 1 (r1 : Int) rfl (by omega) (by omega),
    operand_sourceLine _ [(r0 : Int), (r1 : Int), (r2 : Int)] hm 2 (r2 : Int) rfl (by omega) (by omega),
    addWord_eq r0 r1 r2 h0 h1 h2]

theorem Assemble_LOADC (r j : Nat) (hr : r < 8) (hj : j < 512) :
    Assemble (sourceLine "LOADC".toList [(r : Int), (j : Int)])
      = Except.ok [0, 4096 + 512 * r + j] := by
  have hm : ' ' ∉ "LOADC".toList := by decide
  rw [Assemble_single _ (newline_not_mem_sourceLine _ _ (by decide))
    (operandsPresent_sourceLine _ _ hm (fun _ => by simp) (fun _ => by simp)
      (fun h => absurd h (by decide)))
    (by rw [firstToken_sourceLine _ _ hm]; decide), emittedWord_LOADC r j hr hj]
  rfl

theorem Assemble_ADD (r0 r1 r2 : Nat) (h0 : r0 < 8) (h1 : r1 < 8) (h2 : r2 < 8) :
    Assemble (sourceLine "ADD".toList [(r0 : Int), (r1 : Int), (r2 : Int)])
      = Except.ok [0, 24576 + 512 * r0 + 32 * r1 + r2] := by
  have hm : ' ' ∉ "ADD".toList := by decide
  rw [Assemble_single _ (newline_not_mem_sourceLine _ _ (by decide))
    (operandsPresent_sourceLine _ _ hm (fun _ => by simp) (fun _ => by simp) (fun _ => by simp))
    (by rw [firstToken_sourceLine _ _ hm]; decide), emittedWord_ADD r0 r1 r2 h0 h1 h2]
  rfl

/-! ## Lemmas on arithmetic words -/

theorem shift_eq_opcodeOf (w : Nat) : w >>> PARAMETER_SIZE = opcodeOf w := by
  unfold PARAMETER_SIZE opcodeOf
  rw [Nat.shiftRight_eq_div_pow]

theorem field_11_9 (w : Nat) : (w >>> 9) % 8 = bits w 11 9 := by
  rw [Nat.shiftRight_eq_div_pow]; rfl

theorem field_7_5 (w : Nat) : (w >>> 5) % 8 = bits w 7 5 := by
  rw [Nat.shiftRight_eq_div_pow]; rfl

theorem bits_11_9_lt (w : Nat) : bits w 11 9 < 8 := Nat.mod_lt _ (by norm_num)

theorem bits_11_9_ne_PC (w : Nat) : bits w 11 9 ≠ R_PC := by
  have := bits_11_9_lt w
  unfold R_PC
  omega

theorem bits_lt_8 (w lo : Nat) : bits w (lo + 2) lo < 8 := by
  unfold bits
  have h : lo + 2 + 1 - lo = 3 := by omega
  rw [h]
  exact Nat.mod_lt _ (by norm_num)

theorem incPC_reg_bits (s : VM) (w lo : Nat) :
    (incPC s).reg (bits w (lo + 2) lo) = s.reg (bits w (lo + 2) lo) := by
  have := bits_lt_8 w lo
  exact incPC_reg s _ (by unfold R_PC; omega)

theorem sub16_eq (a b : Nat) :
    (a + 65536 - b % 65536) % 65536 = (((a : Int) - (b : Int)) % 2 ^ 16).toNat := by
  omega

/-- The `switch` on an arithmetic word. -/
theorem exec_arith (w : Nat) (s : VM)
    (hop : opcodeOf w = OP_ADD ∨ opcodeOf w = OP_SUB ∨ opcodeOf w = OP_MUL ∨ opcodeOf w = OP_DIV)
    (hdiv : opcodeOf w = OP_DIV → arithOperandOf w s ≠ 0) :
    exec w (incPC s) = Except.ok
      { incPC s with
        reg := Function.update (incPC s).reg (bits w 11 9)
                (arithResult (opcodeOf w) (s.reg (bits w 7 5)) (arithOperandOf w s)) } := by
  unfold exec
  simp only [shift_eq_opcodeOf]
  rcases hop with h | h | h | h
  · simp [h, OP_ADD, OP_HALT, OP_LOADC, OP_MOVE, OP_LOADM, OP_STOREM, OP_JUMP, regRead_field,
      regWrite_field, bind, Except.bind, arithOperand_eq, incPC_reg_field, arithResult,
      field_11_9, field_7_5, incPC_reg_bits s w 5]
  · simp [h, OP_ADD, OP_SUB, OP_HALT, OP_LOADC, OP_MOVE, OP_LOADM, OP_STOREM, OP_JUMP,
      regRead_field, regWrite_field, bind, Except.bind, arithOperand_eq, incPC_reg_field,
      arithResult, field_11_9, field_7_5, incPC_reg_bits s w 5]
    rw [sub16_eq]
    norm_num
  · simp [h, OP_ADD, OP_SUB, OP_MUL, OP_HALT, OP_LOADC, OP_MOVE, OP_LOADM, OP_STOREM, OP_JUMP,
      regRead_field, regWrite_field, bind, Except.bind, arithOperand_eq, incPC_reg_field,
      arithResult, field_11_9, field_7_5, incPC_reg_bits s w 5]
  · have := hdiv h
    simp [h, OP_ADD, OP_SUB, OP_MUL, OP_DIV, OP_HALT, OP_LOADC, OP_MOVE, OP_LOADM, OP_STOREM,
      OP_JUMP, regRead_field, regWrite_field, bind, Except.bind, arithOperand_eq,
      incPC_reg_field, arithResult, field_11_9, field_7_5, this, incPC_reg_bits s w 5]

/-- What a write to a general-purpose register after `reg[R_PC]++` leaves behind. -/
theorem frame_of_regWrite (s t : VM) (d v : Nat) (hd : d ≠ R_PC)
    (h : t = { incPC s with reg := Function.update (incPC s).reg d v }) :
    t.reg d = v ∧
    t.reg R_PC = (s.reg R_PC + 1) % 2 ^ 16 ∧
    (∀ r, r ≠ d → r ≠ R_PC → t.reg r = s.reg r) ∧
    t.memory = s.memory ∧ t.status = s.status ∧ t.stdout = s.stdout := by
  subst h
  refine ⟨by simp, ?_, ?_, rfl, rfl, rfl⟩
  · simp [Function.update_noteq (Ne.symm hd), incPC]
  · intro r h1 h2
    simp [Function.update_noteq h1, incPC, Function.update_noteq h2]

/-! ## Lemmas on comparison and `LOADC` words -/

theorem skipUnless_frame (b : Bool) (s t : VM) (h : t = skipUnless b (incPC s)) :
    t.reg R_PC = (if b = true then (s.reg R_PC + 1) % 2 ^ 16 else (s.reg R_PC + 2) % 2 ^ 16) ∧
    (∀ r, r ≠ R_PC → t.reg r = s.reg r) ∧
    t.memory = s.memory ∧ t.status = s.status ∧ t.stdout = s.stdout := by
  subst h
  cases b
  · refine ⟨?_, ?_, rfl, rfl, rfl⟩
    · simp only [skipUnless, incPC, Function.update_same]
      norm_num
    · intro r hr
      simp [skipUnless, incPC, Function.update_noteq hr]
  · refine ⟨?_, ?_, rfl, rfl, rfl⟩
    · simp [skipUnless, incPC]
    · intro r hr
      simp [skipUnless, incPC, Function.update_noteq hr]

/-- The `switch` on a comparison word. -/
theorem exec_compare (w : Nat) (s : VM)
    (hop : opcodeOf w = OP_EQ ∨ opcodeOf w = OP_LT ∨ opcodeOf w = OP_LE) :
    exec w (incPC s) = Except.ok
      (skipUnless (cmpTest (opcodeOf w) (s.reg (bits w 11 9)) (cmpOperandOf w s)) (incPC s)) := by
  unfold exec
  simp only [shift_eq_opcodeOf]
  rcases hop with h | h | h
  · simp [h, OP_ADD, OP_SUB, OP_MUL, OP_DIV, OP_NOT, OP_EQ, OP_HALT, OP_LOADC, OP_MOVE, OP_LOADM,
      OP_STOREM, OP_JUMP, regRead_field, bind, Except.bind, pure, Except.pure, cmpOperand_eq,
      cmpTest, field_11_9, incPC_reg_bits s w 9]
  · simp [h, OP_ADD, OP_SUB, OP_MUL, OP_DIV, OP_NOT, OP_EQ, OP_LT, OP_HALT, OP_LOADC, OP_MOVE,
      OP_LOADM, OP_STOREM, OP_JUMP, regRead_field, bind, Except.bind, pure, Except.pure,
      cmpOperand_eq, cmpTest, field_11_9, incPC_reg_bits s w 9]
  · simp [h, OP_ADD, OP_SUB, OP_MUL, OP_DIV, OP_NOT, OP_EQ, OP_LT, OP_LE, OP_HALT, OP_LOADC,
      OP_MOVE, OP_LOADM, OP_STOREM, OP_JUMP, regRead_field, bind, Except.bind, pure, Except.pure,
      cmpOperand_eq, cmpTest, field_11_9, incPC_reg_bits s w 9]

/-- The `switch` on a `LOADC` word. -/
theorem exec_LOADC (w : Nat) (s : VM) (hop : opcodeOf w = OP_LOADC) :
    exec w (incPC s) = Except.ok
      { incPC s with
        reg := Function.update (incPC s).reg (bits w 11 9)
                (s.memory ((sign_extend (bits w 8 0) 9 + 1) % 65536)) } := by
  have h9 : w % 512 = bits w 8 0 := by unfold bits; norm_num
  unfold exec
  simp only [shift_eq_opcodeOf]
  simp [hop, OP_HALT, OP_LOADC, regWrite_field, field_11_9, const_read, and_1FF,
    CONSTANT_POOL_OFFSET, h9, incPC]

theorem step_LOADC (s : VM) (w : Nat) (hrun : s.status = Status.running)
    (hw : s.memory (s.reg R_PC) = w) (hop : opcodeOf w = OP_LOADC) :
    (step s).reg (bits w 11 9) = s.memory ((sign_extend (bits w 8 0) 9 + 1) % 65536) ∧
    (step s).reg R_PC = (s.reg R_PC + 1) % 2 ^ 16 ∧
    (∀ r, r ≠ bits w 11 9 → r ≠ R_PC → (step s).reg r = s.reg r) ∧
    (step s).memory = s.memory ∧ (step s).status = s.status ∧ (step s).stdout = s.stdout := by
  apply frame_of_regWrite s (step s) _ _ (bits_11_9_ne_PC w)
  rw [step_running s hrun, hw, exec_LOADC w s hop]

/-! ## Lemmas on `run`, `HALT` and the loader -/

theorem run_of_not_running (fuel : Nat) (s : VM) (h : s.status ≠ Status.running) :
    run fuel s = s := by
  cases fuel with
  | zero => rfl
  | succ k =>
    unfold run
    cases hs : s.status with
    | running => exact absurd hs h
    | halted => rfl
    | unknownInstruction op => rfl
    | panicked p => rfl

theorem run_succ_of_running (fuel : Nat) (s : VM) (h : s.status = Status.running) :
    run (fuel + 1) s = run fuel (step s) := by
  rw [run, h]

/-- The `switch` on a `HALT` word. -/
theorem exec_HALT (w : Nat) (s : VM) (hop : opcodeOf w = OP_HALT) :
    exec w (incPC s) = Except.ok { incPC s with status := Status.halted } := by
  unfold exec
  simp only [shift_eq_opcodeOf]
  simp [hop]

theorem step_HALT (s : VM) (w : Nat) (hrun : s.status = Status.running)
    (hw : s.memory (s.reg R_PC) = w) (hop : opcodeOf w = OP_HALT) :
    (step s).status = Status.halted ∧
    (step s).reg R_PC = (s.reg R_PC + 1) % 2 ^ 16 ∧
    (∀ r, r ≠ R_PC → (step s).reg r = s.reg r) ∧
    (step s).memory = s.memory ∧ (step s).stdout = s.stdout := by
  rw [step_running s hrun, hw, exec_HALT w s hop]
  refine ⟨rfl, ?_, ?_, rfl, rfl⟩
  · simp [incPC]
  · intro r hr
    simp [incPC, Function.update_noteq hr]

theorem loadFrom_apply (program : List Nat) :
    ∀ (i : Nat) (memory : Nat → Nat) (a : Nat), i + program.length ≤ 65536 →
      loadFrom program i memory a
        = if i ≤ a ∧ a < i + program.length then program.getD (a - i) 0 else memory a := by
  induction program with
  | nil =>
    intro i memory a _
    have : ¬ (i ≤ a ∧ a < i + ([] : List Nat).length) := by simp
    rw [if_neg this]; rfl
  | cons x rest ih =>
    intro i memory a h
    rw [List.length_cons] at h
    rw [loadFrom, ih (i + 1) _ a (by omega), Nat.mod_eq_of_lt (by omega), List.length_cons]
    by_cases h1 : i + 1 ≤ a ∧ a < i + 1 + rest.length
    · rw [if_pos h1, if_pos (by omega)]
      have : a - i = (a - (i + 1)) + 1 := by omega
      rw [this, List.getD_cons_succ]
    · rw [if_neg h1]
      by_cases h2 : a = i
      · subst h2
        rw [Function.update_same, if_pos (by omega), Nat.sub_self]
        rfl
      · rw [Function.update_noteq h2, if_neg (by omega)]

theorem boot_memory (program : List Nat) (h : program.length ≤ 65536) (a : Nat) :
    (boot program).memory a = if a < program.length then program.getD a 0 else 0 := by
  have := loadFrom_apply program 0 (fun _ => 0) a (by omega)
  simp only [Nat.zero_le, true_and, Nat.zero_add, Nat.sub_zero] at this
  exact this

theorem boot_status (program : List Nat) : (boot program).status = Status.running := rfl

theorem boot_reg_PC (program : List Nat) : (boot program).reg R_PC = (boot program).memory 0 := by
  simp [boot, R_PC, R_MAR, R_COND]

theorem boot_reg_lt_8 (program : List Nat) (r : Nat) (h : r < 8) : (boot program).reg r = 0 := by
  have h1 : r ≠ R_MAR := by unfold R_MAR; omega
  have h2 : r ≠ R_PC := by unfold R_PC; omega
  have h3 : r ≠ R_COND := by unfold R_COND; omega
  simp [boot, Function.update_noteq h1, Function.update_noteq h2, Function.update_noteq h3,
    load_into_memory, powerOn]

/-! ## The constant-load program -/

theorem startAfter_append (pre rest : List (List Char)) :
    ∀ i p, startAfter (pre ++ rest) i p = startAfter rest (i + pre.length) (startAfter pre i p) := by
  induction pre with
  | nil => intro i p; rfl
  | cons l pre ih =>
    intro i p
    rw [List.cons_append, startAfter, ih, startAfter, List.length_cons]
    congr 1
    omega

theorem startAfter_no_START (lines : List (List Char))
    (h : ∀ l ∈ lines, firstToken l ≠ "START".toList) : ∀ i p, startAfter lines i p = p := by
  induction lines with
  | nil => intro i p; rfl
  | cons l rest ih =>
    intro i p
    rw [startAfter, if_neg (h l (List.mem_cons_self _ _)),
      ih (fun x hx => h x (List.mem_cons_of_mem _ hx))]

theorem emittedWord_CONST (v : Int) (h1 : -9223372036854775808 ≤ v)
    (h2 : v < 9223372036854775808) :
    emittedWord (sourceLine "CONST".toList [v]) = some (uint16 v) := by
  have hm : ' ' ∉ "CONST".toList := by decide
  unfold emittedWord
  rw [firstToken_sourceLine _ _ hm, if_pos rfl, operand_sourceLine _ [v] hm 0 v rfl h1 h2]

theorem filterMap_CONST (vs : List Int)
    (hv : ∀ v ∈ vs, -9223372036854775808 ≤ v ∧ v < 9223372036854775808) :
    (vs.map (fun v => sourceLine "CONST".toList [v])).filterMap emittedWord = vs.map uint16 := by
  induction vs with
  | nil => rfl
  | cons v vs ih =>
    have hv0 := hv v (List.mem_cons_self _ _)
    rw [List.map_cons, List.filterMap_cons, emittedWord_CONST v hv0.1 hv0.2,
      ih (fun x hx => hv x (List.mem_cons_of_mem _ hx)), List.map_cons]

/-- The words `Assemble` returns for the program of constants followed by
`START`, `LOADC r j`, `HALT`. -/
theorem Assemble_constLoad (vs : List Int) (r j : Nat) (hr : r < 8) (hj : j < 512)
    (hv : ∀ v ∈ vs, -9223372036854775808 ≤ v ∧ v < 9223372036854775808) :
    Assemble (constLoadSource vs r j)
      = Except.ok (((vs.length + 1) % 65536) :: (vs.map uint16 ++ [4096 + 512 * r + j, 0])) := by
  have hmC : ' ' ∉ "CONST".toList := by decide
  have hmL : ' ' ∉ "LOADC".toList := by decide
  have hsplit : List.splitOn '\n' (constLoadSource vs r j) = constLoadLines vs r j := by
    apply splitOn_sourceText
    · simp [constLoadLines]
    · intro l hl
      simp only [constLoadLines, List.mem_append, List.mem_map, List.mem_cons,
        List.mem_singleton, List.not_mem_nil, or_false] at hl
      rcases hl with ⟨v, _, rfl⟩ | rfl | rfl | rfl
      · exact newline_not_mem_sourceLine _ _ (by decide)
      · decide
      · exact newline_not_mem_sourceLine _ _ (by decide)
      · decide
  have hops : ∀ line ∈ constLoadLines vs r j, operandsPresent line := by
    intro l hl
    simp only [constLoadLines, List.mem_append, List.mem_map, List.mem_cons,
      List.mem_singleton, List.not_mem_nil, or_false] at hl
    rcases hl with ⟨v, _, rfl⟩ | rfl | rfl | rfl
    · exact operandsPresent_sourceLine _ _ hmC (fun _ => by simp)
        (fun h => absurd h (by decide)) (fun h => absurd h (by decide))
    · decide
    · exact operandsPresent_sourceLine _ _ hmL (fun h => absurd h (by decide))
        (fun _ => by simp) (fun h => absurd h (by decide))
    · decide
  have hpre : startAfter (vs.map (fun v => sourceLine "CONST".toList [v])) 0 0 = 0 := by
    apply startAfter_no_START
    intro l hl
    rw [List.mem_map] at hl
    obtain ⟨v, _, rfl⟩ := hl
    rw [firstToken_sourceLine _ _ hmC]
    decide
  have hstart : startAfter (constLoadLines vs r j) 0 0 = vs.length + 1 := by
    unfold constLoadLines
    rw [startAfter_append, hpre]
    simp only [startAfter, List.length_map, Nat.zero_add, firstToken_sourceLine _ _ hmL]
    rw [if_neg (by decide), if_neg (by decide), if_pos (by decide)]
  have hwords : (constLoadLines vs r j).filterMap emittedWord
      = vs.map uint16 ++ [4096 + 512 * r + j, 0] := by
    unfold constLoadLines
    rw [List.filterMap_append, filterMap_CONST vs hv]
    congr 1
    rw [List.filterMap_cons, show emittedWord "START".toList = none by decide,
      List.filterMap_cons, emittedWord_LOADC r j hr hj,
      List.filterMap_cons, show emittedWord "HALT".toList = some 0 by decide]
    rfl
  rw [Assemble_eq _ (by rw [hsplit]; exact hops), hsplit, hstart, hwords]

theorem getD_program (n : Nat) (cs tl : List Nat) (hd : Nat) (hlen : cs.length = n) :
    (∀ k, k < n → (hd :: (cs ++ tl)).getD (k + 1) 0 = cs.getD k 0) ∧
    (∀ k, (hd :: (cs ++ tl)).getD (n + 1 + k) 0 = tl.getD k 0) := by
  constructor
  · intro k hk
    rw [List.getD_cons_succ, List.getD_append _ _ _ _ (by omega)]
  · intro k
    have : n + 1 + k = (n + k) + 1 := by omega
    rw [this, List.getD_cons_succ, List.getD_append_right _ _ _ _ (by omega)]
    congr 1
    omega

/-- The run of the constant-load program: after two passes the machine is
halted, `reg[r]` holds the cell the `LOADC` word addresses, and the other
general-purpose registers are as at the start. -/
theorem constLoad_run (vs : List Int) (r j : Nat) (hr : r < 8) (hj : j < 512)
    (hn : vs.length ≤ 65000)
    (hv : ∀ v ∈ vs, -9223372036854775808 ≤ v ∧ v < 9223372036854775808) :
    ∃ t, Assemble (constLoadSource vs r j)
        = Except.ok ((vs.length + 1) :: (vs.map uint16 ++ [4096 + 512 * r + j, 0])) ∧
      (∀ fuel, 2 ≤ fuel →
        run fuel (boot ((vs.length + 1) :: (vs.map uint16 ++ [4096 + 512 * r + j, 0]))) = t) ∧
      t.status = Status.halted ∧
      t.reg r = (boot ((vs.length + 1) :: (vs.map uint16 ++ [4096 + 512 * r + j, 0]))).memory
        ((sign_extend j 9 + 1) % 65536) ∧
      ∀ q, q < 8 → q ≠ r →
        t.reg q = (boot ((vs.length + 1) :: (vs.map uint16 ++ [4096 + 512 * r + j, 0]))).reg q := by
  have hA := Assemble_constLoad vs r j hr hj hv
  rw [Nat.mod_eq_of_lt (by omega)] at hA
  obtain ⟨-, hget2⟩ := getD_program vs.length (vs.map uint16) [4096 + 512 * r + j, 0]
    (vs.length + 1) (by simp)
  generalize hP : (vs.length + 1) :: (vs.map uint16 ++ [4096 + 512 * r + j, 0]) = P at hA hget2 ⊢
  have hPlen : P.length = vs.length + 3 := by rw [← hP]; simp
  have hmem : ∀ a, a < vs.length + 3 → (boot P).memory a = P.getD a 0 := by
    intro a ha
    rw [boot_memory P (by omega), if_pos (by omega)]
  -- the cells the run fetches
  have hm0 : (boot P).memory 0 = vs.length + 1 := by
    rw [hmem 0 (by omega), ← hP]; rfl
  have hmW : (boot P).memory (vs.length + 1) = 4096 + 512 * r + j := by
    rw [hmem _ (by omega)]
    exact hget2 0
  have hmH : (boot P).memory (vs.length + 2) = 0 := by
    rw [hmem _ (by omega)]
    exact hget2 1
  -- first pass: LOADC
  have hpc0 : (boot P).reg R_PC = vs.length + 1 := by rw [boot_reg_PC, hm0]
  have hop : opcodeOf (4096 + 512 * r + j) = OP_LOADC := by unfold opcodeOf OP_LOADC; omega
  have hdr : bits (4096 + 512 * r + j) 11 9 = r := by unfold bits; norm_num; omega
  have hc9 : bits (4096 + 512 * r + j) 8 0 = j := by unfold bits; norm_num; omega
  obtain ⟨h1r, h1pc, h1fr, h1m, h1s, -⟩ := step_LOADC (boot P) _ (boot_status P)
    (by rw [hpc0, hmW]) hop
  rw [hdr, hc9] at h1r
  rw [hdr] at h1fr
  rw [hpc0] at h1pc
  have h1pc2 : (step (boot P)).reg R_PC = vs.length + 2 := by rw [h1pc]; omega
  rw [boot_status] at h1s
  -- second pass: HALT
  obtain ⟨h2s, -, h2fr, -, -⟩ := step_HALT (step (boot P)) 0 h1s
    (by rw [h1pc2, h1m, hmH]) rfl
  have hrPC : ∀ q, q < 8 → q ≠ R_PC := by intro q hq; unfold R_PC; omega
  refine ⟨step (step (boot P)), hA, ?_, h2s, ?_, ?_⟩
  · intro fuel hfuel
    obtain ⟨k, rfl⟩ : ∃ k, fuel = k + 2 := ⟨fuel - 2, by omega⟩
    rw [run_succ_of_running _ _ (boot_status P), run_succ_of_running _ _ h1s,
      run_of_not_running _ _ (by rw [h2s]; decide)]
  · rw [h2fr r (hrPC r hr), h1r]
  · intro q hq hqr
    rw [h2fr q (hrPC q hq), h1fr q hqr (hrPC q hq)]

/-! ## The other cases of the `switch` -/

theorem field_8_6 (w : Nat) : (w >>> 6) % 8 = bits w 8 6 := by
  rw [Nat.shiftRight_eq_div_pow]; rfl

theorem field_8_0 (w : Nat) : w % 512 = bits w 8 0 := by
  unfold bits; norm_num

theorem field_9_0 (w : Nat) : w % 1024 = bits w 9 0 := by
  unfold bits; norm_num

theorem field_11_11 (w : Nat) : (w >>> 11) % 2 = bits w 11 11 := by
  rw [Nat.shiftRight_eq_div_pow]; rfl

theorem incPC_reg_MAR (s : VM) : (incPC s).reg R_MAR = s.reg R_MAR :=
  incPC_reg s _ (by decide)

theorem incPC_reg_COND (s : VM) : (incPC s).reg R_COND = s.reg R_COND :=
  incPC_reg s _ (by decide)

/-- The `switch` on a `MOVE` word. -/
theorem exec_MOVE (w : Nat) (s : VM) (hop : opcodeOf w = OP_MOVE) :
    exec w (incPC s) = Except.ok
      { incPC s with
        reg := Function.update (incPC s).reg (bits w 8 6) (s.reg (bits w 11 9)) } := by
  unfold exec
  simp only [shift_eq_opcodeOf]
  simp [hop, OP_HALT, OP_LOADC, OP_MOVE, regRead_field, regWrite_field, bind, Except.bind,
    field_11_9, field_8_6, incPC_reg_bits s w 9]

/-- The `switch` on a `LOADM` word. -/
theorem exec_LOADM (w : Nat) (s : VM) (hop : opcodeOf w = OP_LOADM) :
    exec w (incPC s) = Except.ok
      { incPC s with
        reg := Function.update (incPC s).reg (bits w 11 9)
                (s.memory ((s.reg R_MAR + sign_extend (bits w 8 0) 9) % 65536)) } := by
  unfold exec
  simp only [shift_eq_opcodeOf]
  simp [hop, OP_HALT, OP_LOADC, OP_MOVE, OP_LOADM, regWrite_field, field_11_9, map_mem_read,
    and_1FF, field_8_0, incPC_reg_MAR]
  rfl

/-- The `switch` on a `STOREM` word. -/
theorem exec_STOREM (w : Nat) (s : VM) (hop : opcodeOf w = OP_STOREM) :
    exec w (incPC s) = Except.ok
      { incPC s with
        memory := Function.update s.memory (s.reg R_MAR) (s.reg (bits w 11 9)) } := by
  unfold exec
  simp only [shift_eq_opcodeOf]
  simp [hop, OP_HALT, OP_LOADC, OP_MOVE, OP_LOADM, OP_STOREM, regRead_field, bind, Except.bind,
    pure, Except.pure, field_11_9, map_mem_write, incPC_reg_MAR, incPC_reg_bits s w 9]
  rfl

/-- The `switch` on a `JUMP` word. -/
theorem exec_JUMP (w : Nat) (s : VM) (hop : opcodeOf w = OP_JUMP) :
    exec w (incPC s) = Except.ok
      { incPC s with
        reg := Function.update (incPC s).reg R_PC
                (if bits w 11 11 = 0 then ((s.reg R_PC + 1) % 65536 + bits w 9 0) % 65536
                 else ((s.reg R_PC + 1) % 65536 + 65536 - bits w 9 0) % 65536) } := by
  unfold exec
  simp only [shift_eq_opcodeOf]
  simp only [hop, OP_HALT, OP_LOADC, OP_MOVE, OP_LOADM, OP_STOREM, OP_JUMP, and_1, and_3FF,
    field_11_11, field_9_0, incPC_reg_PC]
  norm_num
  split_ifs <;> rfl

/-- The `switch` on a `NOT` word. -/
theorem exec_NOT (w : Nat) (s : VM) (hop : opcodeOf w = OP_NOT) :
    exec w (incPC s) = Except.ok
      { incPC s with
        reg := Function.update (incPC s).reg (bits w 11 9)
                (s.reg (bits w 8 6) ^^^ 0xFFFF) } := by
  unfold exec
  simp only [shift_eq_opcodeOf]
  simp [hop, OP_HALT, OP_LOADC, OP_MOVE, OP_LOADM, OP_STOREM, OP_JUMP, OP_ADD, OP_SUB, OP_MUL,
    OP_DIV, OP_NOT, regRead_field, regWrite_field, bind, Except.bind, field_11_9, field_8_6,
    incPC_reg_bits s w 6]

/-- The `switch` on a `DBG` word. -/
theorem exec_DBG (w : Nat) (s : VM) (hop : opcodeOf w = OP_DBG) :
    exec w (incPC s) = Except.ok
      { incPC s with
        stdout := s.stdout ++ [Out.dump [(s.reg R_PC + 1) % 65536, s.reg 0, s.reg 1, s.reg 2,
          s.reg 3, s.reg 4, s.reg 5, s.reg 6, s.reg 7]] } := by
  unfold exec
  simp only [shift_eq_opcodeOf]
  simp [hop, OP_HALT, OP_LOADC, OP_MOVE, OP_LOADM, OP_STOREM, OP_JUMP, OP_ADD, OP_SUB, OP_MUL,
    OP_DIV, OP_NOT, OP_EQ, OP_LT, OP_LE, OP_DBG, incPC, R_PC]

/-- The `default` case of the `switch`. -/
theorem exec_unknown (w : Nat) (s : VM) (hop : 15 ≤ opcodeOf w) :
    exec w (incPC s) = Except.ok
      { incPC s with
        status := Status.unknownInstruction (opcodeOf w)
        stdout := s.stdout ++ [Out.unknown (opcodeOf w)] } := by
  unfold exec
  simp only [shift_eq_opcodeOf]
  have h : ∀ k, k < 15 → ¬ opcodeOf w = k := by intro k hk; omega
  simp only [OP_HALT, OP_LOADC, OP_MOVE, OP_LOADM, OP_STOREM, OP_JUMP, OP_ADD, OP_SUB, OP_MUL,
    OP_DIV, OP_NOT, OP_EQ, OP_LT, OP_LE, OP_DBG, h 0x0 (by decide), h 0x1 (by decide),
    h 0x2 (by decide), h 0x3 (by decide), h 0x4 (by decide), h 0x5 (by decide),
    h 0x6 (by decide), h 0x7 (by decide), h 0x8 (by decide), h 0x9 (by decide),
    h 0xA (by decide), h 0xB (by decide), h 0xC (by decide), h 0xD (by decide),
    h 0xE (by decide), if_false]
  rfl

/-- The `DIV` case of the `switch` with a zero divisor: Go panics. -/
theorem exec_DIV_zero (w : Nat) (s : VM) (hop : opcodeOf w = OP_DIV)
    (hz : arithOperandOf w s = 0) :
    exec w (incPC s) = Except.error Panic.divideByZero := by
  unfold exec
  simp only [shift_eq_opcodeOf]
  simp [hop, OP_HALT, OP_LOADC, OP_MOVE, OP_LOADM, OP_STOREM, OP_JUMP, OP_ADD, OP_SUB, OP_MUL,
    OP_DIV, regRead_field, bind, Except.bind, arithOperand_eq, hz]

/-! ## Lemmas on every pass of the loop -/

theorem xor_FFFF (x : Nat) (h : x < 65536) : x ^^^ 0xFFFF = 0xFFFF - x := by
  apply Nat.eq_of_testBit_eq
  intro i
  have h1 : (0xFFFF : Nat) = 2 ^ 16 - 1 := by norm_num
  have h2 : 0xFFFF - x = 2 ^ 16 - (x + 1) := by omega
  rw [Nat.testBit_xor, h2, Nat.testBit_two_pow_sub_succ (by norm_num; exact h), h1,
    Nat.testBit_two_pow_sub_one]
  by_cases hi : i < 16
  · simp [hi]
  · have : x.testBit i = false := by
      apply Nat.testBit_lt_two_pow
      calc x < 2 ^ 16 := by norm_num; exact h
        _ ≤ 2 ^ i := Nat.pow_le_pow_right (by norm_num) (by omega)
    simp [hi, this]

theorem WF_machine (cells : List (Nat × Nat)) (regs : List Nat)
    (hc : ∀ p ∈ cells, p.2 < 65536) (hr : ∀ v ∈ regs, v < 65536) : WF (machine cells regs) := by
  constructor
  · intro a
    show (cells.lookup a).getD 0 < 65536
    induction cells with
    | nil => simp
    | cons p rest ih =>
      obtain ⟨k, v⟩ := p
      rw [List.lookup_cons]
      by_cases h : a == k
      · simp only [h]
        exact hc (k, v) (List.mem_cons_self _ _)
      · simp only [h]
        exact ih (fun q hq => hc q (List.mem_cons_of_mem _ hq))
  · intro r
    show regs.getD r 0 < 65536
    rw [List.getD_eq_getElem?_getD]
    cases h : regs[r]? with
    | none => simp
    | some v => exact hr v (List.mem_iff_getElem?.2 ⟨r, h⟩)

theorem opcode_cases (w : Nat) :
    opcodeOf w = OP_HALT ∨ opcodeOf w = OP_LOADC ∨ opcodeOf w = OP_MOVE ∨ opcodeOf w = OP_LOADM ∨
    opcodeOf w = OP_STOREM ∨ opcodeOf w = OP_JUMP ∨
    (opcodeOf w = OP_ADD ∨ opcodeOf w = OP_SUB ∨ opcodeOf w = OP_MUL ∨ opcodeOf w = OP_DIV) ∨
    opcodeOf w = OP_NOT ∨ (opcodeOf w = OP_EQ ∨ opcodeOf w = OP_LT ∨ opcodeOf w = OP_LE) ∨
    opcodeOf w = OP_DBG ∨ 15 ≤ opcodeOf w := by
  unfold OP_HALT OP_LOADC OP_MOVE OP_LOADM OP_STOREM OP_JUMP OP_ADD OP_SUB OP_MUL OP_DIV OP_NOT
    OP_EQ OP_LT OP_LE OP_DBG
  omega

/-- What every pass of a running machine keeps and how it can end: the
registers from index 9 on (`COND`, `MAR`) and every memory cell other than
`physical[MAR]` are kept; the pass ends
in the unknown-instruction exit (opcode 15 or more), in the divide-by-zero panic
(`DIV` with a zero divisor), or running or halted. -/
theorem step_summary (s : VM) (w : Nat) (hrun : s.status = Status.running)
    (hw : s.memory (s.reg R_PC) = w) :
    ((∀ r, 9 ≤ r → (step s).reg r = s.reg r) ∧
      ∀ a, a ≠ s.reg R_MAR → (step s).memory a = s.memory a) ∧
    (((step s).status = Status.unknownInstruction (opcodeOf w) ∧ 15 ≤ opcodeOf w ∧
        (∀ r, r ≠ R_PC → (step s).reg r = s.reg r) ∧ (step s).memory = s.memory) ∨
      ((step s).status = Status.panicked Panic.divideByZero ∧ opcodeOf w = OP_DIV ∧
        arithOperandOf w s = 0) ∨
      (((step s).status = Status.running ∨ (step s).status = Status.halted) ∧
        opcodeOf w ≤ 14 ∧ ¬ (opcodeOf w = OP_DIV ∧ arithOperandOf w s = 0))) := by
  have hP : ∀ r, 9 ≤ r → r ≠ R_PC := by intro r h; unfold R_PC; omega
  have hinc : ∀ r, 9 ≤ r → (incPC s).reg r = s.reg r := fun r h => incPC_reg s r (hP r h)
  have h119 := bits_11_9_lt w
  have h86 : bits w 8 6 < 8 := bits_lt_8 w 6
  -- a write to a general-purpose register
  have regCase : ∀ d v, d < 8 → opcodeOf w ≤ 14 →
      ¬ (opcodeOf w = OP_DIV ∧ arithOperandOf w s = 0) →
      exec w (incPC s) = Except.ok { incPC s with reg := Function.update (incPC s).reg d v } →
      ((∀ r, 9 ≤ r → (step s).reg r = s.reg r) ∧
        ∀ a, a ≠ s.reg R_MAR → (step s).memory a = s.memory a) ∧
      (((step s).status = Status.unknownInstruction (opcodeOf w) ∧ 15 ≤ opcodeOf w ∧
          (∀ r, r ≠ R_PC → (step s).reg r = s.reg r) ∧ (step s).memory = s.memory) ∨
        ((step s).status = Status.panicked Panic.divideByZero ∧ opcodeOf w = OP_DIV ∧
          arithOperandOf w s = 0) ∨
        (((step s).status = Status.running ∨ (step s).status = Status.halted) ∧
          opcodeOf w ≤ 14 ∧ ¬ (opcodeOf w = OP_DIV ∧ arithOperandOf w s = 0))) := by
    intro d v hd8 hle hnz he
    obtain ⟨-, -, h3, h4, h5, -⟩ := frame_of_regWrite s (step s) d v
      (by unfold R_PC; omega) (by rw [step_running s hrun, hw, he])
    exact ⟨⟨fun r hr => h3 r (by omega) (hP r hr), fun a _ => by rw [h4]⟩,
      Or.inr (Or.inr ⟨Or.inl (by rw [h5, hrun]), hle, hnz⟩)⟩
  have hnd : ∀ k, opcodeOf w = k → k ≠ OP_DIV →
      ¬ (opcodeOf w = OP_DIV ∧ arithOperandOf w s = 0) := by
    intro k hk hne h; exact hne (hk ▸ h.1)
  rcases opcode_cases w with h | h | h | h | h | h | h | h | h | h | h
  · -- HALT
    obtain ⟨h1, -, h3, h4, -⟩ := step_HALT s w hrun hw h
    exact ⟨⟨fun r hr => h3 r (hP r hr), fun a _ => by rw [h4]⟩,
      Or.inr (Or.inr ⟨Or.inr h1, by rw [h]; decide, hnd _ h (by decide)⟩)⟩
  · exact regCase _ _ h119 (by rw [h]; decide) (hnd _ h (by decide)) (exec_LOADC w s h)
  · exact regCase _ _ h86 (by rw [h]; decide) (hnd _ h (by decide)) (exec_MOVE w s h)
  · exact regCase _ _ h119 (by rw [h]; decide) (hnd _ h (by decide)) (exec_LOADM w s h)
  · -- STOREM
    rw [step_running s hrun, hw, exec_STOREM w s h]
    refine ⟨⟨hinc, ?_⟩,
      Or.inr (Or.inr ⟨Or.inl hrun, by rw [h]; decide, hnd _ h (by decide)⟩)⟩
    intro a ha
    simp [Function.update_noteq ha]
  · -- JUMP
    rw [step_running s hrun, hw, exec_JUMP w s h]
    refine ⟨⟨?_, fun a _ => rfl⟩,
      Or.inr (Or.inr ⟨Or.inl hrun, by rw [h]; decide, hnd _ h (by decide)⟩)⟩
    intro r hr
    simp [Function.update_noteq (hP r hr), incPC]
  · -- ADD, SUB, MUL, DIV
    by_cases hz : opcodeOf w = OP_DIV ∧ arithOperandOf w s = 0
    · rw [step_running s hrun, hw, exec_DIV_zero w s hz.1 hz.2]
      exact ⟨⟨hinc, fun a _ => rfl⟩, Or.inr (Or.inl ⟨rfl, hz⟩)⟩
    · refine regCase _ _ h119 ?_ hz
        (exec_arith w s h (fun hdiv hzero => hz ⟨hdiv, hzero⟩))
      rcases h with h | h | h | h <;> rw [h] <;> decide
  · exact regCase _ _ h119 (by rw [h]; decide) (hnd _ h (by decide)) (exec_NOT w s h)
  · -- EQ, LT, LE
    obtain ⟨-, h2, h3, h4, -⟩ := skipUnless_frame _ s (step s)
      (by rw [step_running s hrun, hw, exec_compare w s h])
    refine ⟨⟨fun r hr => h2 r (hP r hr), fun a _ => by rw [h3]⟩,
      Or.inr (Or.inr ⟨Or.inl (by rw [h4, hrun]), ?_, ?_⟩)⟩
    · rcases h with h | h | h <;> rw [h] <;> decide
    · rcases h with h | h | h <;> exact hnd _ h (by decide)
  · -- DBG
    rw [step_running s hrun, hw, exec_DBG w s h]
    exact ⟨⟨hinc, fun a _ => rfl⟩,
      Or.inr (Or.inr ⟨Or.inl hrun, by rw [h]; decide, hnd _ h (by decide)⟩)⟩
  · -- default
    rw [step_running s hrun, hw, exec_unknown w s h]
    refine ⟨⟨hinc, fun a _ => rfl⟩, Or.inl ⟨rfl, h, ?_, rfl⟩⟩
    intro r hr
    exact incPC_reg s r hr

theorem step_of_not_running (s : VM) (h : s.status ≠ Status.running) : step s = s := by
  unfold step
  cases hs : s.status with
  | running => exact absurd hs h
  | halted => rfl
  | unknownInstruction op => rfl
  | panicked p => rfl

/-- Every pass keeps the registers from index 9 on and every memory cell other
than `physical[MAR]`. -/
theorem step_keeps (s : VM) :
    (∀ r, 9 ≤ r → (step s).reg r = s.reg r) ∧
    ∀ a, a ≠ s.reg R_MAR → (step s).memory a = s.memory a := by
  by_cases h : s.status = Status.running
  · exact (step_summary s _ h rfl).1
  · rw [step_of_not_running s h]
    exact ⟨fun _ _ => rfl, fun _ _ => rfl⟩

theorem run_keeps (fuel : Nat) :
    ∀ s : VM, (∀ r, 9 ≤ r → (run fuel s).reg r = s.reg r) ∧
      ∀ a, a ≠ s.reg R_MAR → (run fuel s).memory a = s.memory a := by
  induction fuel with
  | zero => intro s; exact ⟨fun _ _ => rfl, fun _ _ => rfl⟩
  | succ k ih =>
    intro s
    by_cases h : s.status = Status.running
    · rw [run_succ_of_running k s h]
      obtain ⟨h1, h2⟩ := step_keeps s
      obtain ⟨k1, k2⟩ := ih (step s)
      have hmar : (step s).reg R_MAR = s.reg R_MAR := h1 R_MAR (by decide)
      refine ⟨fun r hr => by rw [k1 r hr, h1 r hr], fun a ha => ?_⟩
      rw [k2 a (by rw [hmar]; exact ha), h2 a ha]
    · rw [run_of_not_running _ s h]
      exact ⟨fun _ _ => rfl, fun _ _ => rfl⟩

theorem boot_reg_MAR (program : List Nat) : (boot program).reg R_MAR = 0x1007 := by
  simp [boot]

theorem boot_reg_COND (program : List Nat) : (boot program).reg R_COND = FL_ZRO := by
  simp [boot, R_COND, R_MAR, R_PC]

theorem bits_15_12 (w : Nat) (h : w < 65536) : bits w 15 12 = opcodeOf w := by
  unfold bits opcodeOf
  norm_num
  omega

theorem mem_definedOpcodes (k : Nat) : k ∈ definedOpcodes ↔ k ≤ 14 := by
  simp only [definedOpcodes, OP_HALT, OP_LOADC, OP_MOVE, OP_LOADM, OP_STOREM, OP_JUMP, OP_ADD,
    OP_SUB, OP_MUL, OP_DIV, OP_NOT, OP_EQ, OP_LT, OP_LE, OP_DBG, List.mem_cons,
    List.mem_singleton, List.not_mem_nil, or_false]
  omega

/-! ## Lemmas on the header and on programs without `START` -/

theorem assembleLine_prog_start (st st1 : AsmState) (i : Nat) (line : List Char)
    (h : assembleLine st i line = Except.ok st1) :
    st1.prog_start = if firstToken line = "START".toList then i + 1 else st.prog_start := by
  by_cases hline : line = []
  · subst hline
    have : assembleLine st i [] = Except.ok st := rfl
    rw [this] at h
    injection h with h
    subst h
    rw [if_neg (by decide)]
  have hlen : ¬ line.length = 0 := by simpa using hline
  unfold assembleLine at h
  rw [show List.splitOn ' ' line = tokensOf line from rfl] at h
  simp only [index_zero, bind, Except.bind, pure, Except.pure, hlen, if_false] at h
  by_cases h1 : firstToken line = "CONST".toList
  · have hs : ¬ firstToken line = "START".toList := by rw [h1]; decide
    rw [if_neg hs]
    simp only [h1, if_true] at h
    cases hk : index (tokensOf line) 1 with
    | error e => rw [hk] at h; exact absurd h (by simp)
    | ok t =>
      rw [hk] at h
      injection h with h
      subst h
      rfl
  by_cases h2 : firstToken line = "LOADC".toList
  · have hs : ¬ firstToken line = "START".toList := by rw [h2]; decide
    rw [if_neg hs]
    simp only [h1, hs, h2, if_true, if_false] at h
    cases hk : index (tokensOf line) 1 with
    | error e => rw [hk] at h; exact absurd h (by simp)
    | ok t =>
      rw [hk] at h
      cases hk2 : index (tokensOf line) 2 with
      | error e => simp only [hk2] at h; exact absurd h (by simp)
      | ok t2 =>
        simp only [hk2] at h
        injection h with h
        subst h
        rfl
  by_cases h3 : firstToken line = "ADD".toList
  · have hs : ¬ firstToken line = "START".toList := by rw [h3]; decide
    rw [if_neg hs]
    simp only [h1, hs, h2, h3, if_true, if_false] at h
    cases hk : index (tokensOf line) 1 with
    | error e => rw [hk] at h; exact absurd h (by simp)
    | ok t =>
      rw [hk] at h
      cases hk2 : index (tokensOf line) 2 with
      | error e => simp only [hk2] at h; exact absurd h (by simp)
      | ok t2 =>
        simp only [hk2] at h
        cases hk3 : index (tokensOf line) 3 with
        | error e => simp only [hk3] at h; exact absurd h (by simp)
        | ok t3 =>
          simp only [hk3] at h
          injection h with h
          subst h
          rfl
  by_cases hs : firstToken line = "START".toList
  · rw [if_pos hs]
    simp only [h1, hs, if_true, if_false] at h
    injection h with h
    subst h
    rfl
  rw [if_neg hs]
  by_cases h4 : firstToken line = "DBG".toList
  · simp only [h1, hs, h2, h3, h4, if_true, if_false] at h
    injection h with h
    subst h
    rfl
  by_cases h5 : firstToken line = "HALT".toList
  · simp only [h1, hs, h2, h3, h4, h5, if_true, if_false] at h
    injection h with h
    subst h
    rfl
  simp only [h1, hs, h2, h3, h4, h5, if_true, if_false] at h
  injection h with h
  subst h
  rfl

theorem assembleLoop_prog_start (lines : List (List Char)) :
    ∀ (i : Nat) (st st1 : AsmState), assembleLoop lines i st = Except.ok st1 →
      st1.prog_start = startAfter lines i st.prog_start := by
  induction lines with
  | nil =>
    intro i st st1 h
    injection h with h
    subst h
    rfl
  | cons line rest ih =>
    intro i st st1 h
    rw [assembleLoop] at h
    cases hl : assembleLine st i line with
    | error e => rw [hl] at h; exact absurd h (by simp)
    | ok st2 =>
      rw [hl] at h
      rw [ih (i + 1) st2 st1 h, assembleLine_prog_start st st2 i line hl, startAfter]

/-- The header of whatever `Assemble` returns. -/
theorem Assemble_header (code : List Char) (program : List Nat)
    (h : Assemble code = Except.ok program) :
    ∃ output, program = (startAfter (List.splitOn '\n' code) 0 0 % 65536) :: output := by
  unfold Assemble at h
  cases hl : assembleLoop (List.splitOn '\n' code) 0 { output := [], prog_start := 0, printed := [] } with
  | error e => rw [hl] at h; exact absurd h (by simp)
  | ok st =>
    rw [hl] at h
    injection h with h
    rw [insertHeader_eq, assembleLoop_prog_start _ _ _ _ hl] at h
    exact ⟨st.output, h.symm⟩

theorem loadFrom_snoc (l : List Nat) (x : Nat) :
    ∀ (i : Nat) (memory : Nat → Nat),
      loadFrom (l ++ [x]) i memory
        = Function.update (loadFrom l i memory) ((i + l.length) % 65536) x := by
  induction l with
  | nil => intro i memory; rfl
  | cons y l ih =>
    intro i memory
    rw [List.cons_append, loadFrom, ih, loadFrom, List.length_cons,
      show i + 1 + l.length = i + (l.length + 1) by omega]

theorem constSource_no_START (vs : List Int) (hne : vs ≠ []) :
    List.splitOn '\n' (constSource vs) = vs.map (fun v => sourceLine "CONST".toList [v]) ∧
    ∀ line ∈ List.splitOn '\n' (constSource vs), firstToken line ≠ "START".toList := by
  have hsplit : List.splitOn '\n' (constSource vs)
      = vs.map (fun v => sourceLine "CONST".toList [v]) := by
    apply splitOn_sourceText
    · simpa using hne
    · intro l hl
      rw [List.mem_map] at hl
      obtain ⟨v, _, rfl⟩ := hl
      exact newline_not_mem_sourceLine _ _ (by decide)
  refine ⟨hsplit, ?_⟩
  rw [hsplit]
  intro l hl
  rw [List.mem_map] at hl
  obtain ⟨v, _, rfl⟩ := hl
  rw [firstToken_sourceLine _ _ (by decide)]
  decide

theorem Assemble_constSource (vs : List Int) (hne : vs ≠ [])
    (hv : ∀ v ∈ vs, -9223372036854775808 ≤ v ∧ v < 9223372036854775808) :
    Assemble (constSource vs) = Except.ok (0 :: vs.map uint16) := by
  obtain ⟨hsplit, hno⟩ := constSource_no_START vs hne
  have hops : ∀ line ∈ List.splitOn '\n' (constSource vs), operandsPresent line := by
    rw [hsplit]
    intro l hl
    rw [List.mem_map] at hl
    obtain ⟨v, _, rfl⟩ := hl
    exact operandsPresent_sourceLine _ _ (by decide) (fun _ => by simp)
      (fun h => absurd h (by decide)) (fun h => absurd h (by decide))
  rw [Assemble_eq _ hops, startAfter_no_START _ hno, hsplit, filterMap_CONST vs hv]

/-- A program of 65536 lines `CONST 4096`: the loader wraps and the last word
lands on the header cell. -/
theorem long_constSource (vs : List Int) (hlen : vs.length = 65535)
    (hall : ∀ v ∈ vs, v = 4096) :
    Assemble (constSource (vs ++ [4096])) = Except.ok (0 :: (vs ++ [4096]).map uint16) ∧
    (boot (0 :: (vs ++ [4096]).map uint16)).reg R_PC = 4096 ∧
    (step (boot (0 :: (vs ++ [4096]).map uint16))).status = Status.running ∧
    (step (boot (0 :: (vs ++ [4096]).map uint16))).reg 0 = 4096 := by
  have hA := Assemble_constSource (vs ++ [4096]) (by simp) (by
    intro v hv
    rw [List.mem_append, List.mem_singleton] at hv
    rcases hv with hv | hv
    · rw [hall v hv]; decide
    · rw [hv]; decide)
  have hP : 0 :: (vs ++ [4096]).map uint16 = (0 :: vs.map uint16) ++ [4096] := by
    rw [List.map_append]; rfl
  have hl : (0 :: vs.map uint16).length = 65536 := by simp [hlen]
  have hmem : ∀ a, (boot ((0 :: vs.map uint16) ++ [4096])).memory a
      = if a = 0 then 4096 else (0 :: vs.map uint16).getD a 0 := by
    intro a
    show loadFrom ((0 :: vs.map uint16) ++ [4096]) 0 (fun _ => 0) a = _
    rw [loadFrom_snoc, hl]
    by_cases ha : a = 0
    · subst ha
      simp
    · rw [if_neg ha, Function.update_noteq (by simpa using ha),
        loadFrom_apply _ 0 _ a (by omega), hl]
      by_cases h2 : a < 65536
      · rw [if_pos ⟨Nat.zero_le _, by omega⟩, Nat.sub_zero]
      · rw [if_neg (by omega), List.getD_eq_getElem?_getD, List.getElem?_eq_none (by omega)]
        rfl
  have hcell : ∀ a, 1 ≤ a → a < 65536 → (0 :: vs.map uint16).getD a 0 = 4096 := by
    intro a h1 h2
    obtain ⟨k, rfl⟩ : ∃ k, a = k + 1 := ⟨a - 1, by omega⟩
    have hk : k < vs.length := by omega
    rw [List.getD_cons_succ, List.getD_eq_getElem?_getD, List.getElem?_map,
      List.getElem?_eq_getElem hk, hall _ (List.getElem_mem _)]
    rfl
  rw [hP] at hA ⊢
  have hpc : (boot ((0 :: vs.map uint16) ++ [4096])).reg R_PC = 4096 := by
    rw [boot_reg_PC, hmem 0, if_pos rfl]
  have hw : (boot ((0 :: vs.map uint16) ++ [4096])).memory
      ((boot ((0 :: vs.map uint16) ++ [4096])).reg R_PC) = 4096 := by
    rw [hpc, hmem, if_neg (by decide), hcell 4096 (by decide) (by decide)]
  obtain ⟨h1, -, -, -, h5, -⟩ := step_LOADC _ 4096 (boot_status _) hw (by decide)
  refine ⟨hA, hpc, by rw [h5, boot_status], ?_⟩
  have e1 : bits 4096 11 9 = 0 := by decide
  have e2 : (sign_extend (bits 4096 8 0) 9 + 1) % 65536 = 1 := by decide
  rw [e1, e2, hmem, if_neg (by decide), hcell 1 (by decide) (by decide)] at h1
  exact h1

/-! ## Lemmas on lines that lack an operand token -/

theorem index_of_ge (tokens : List (List Char)) (k : Nat) (h : tokens.length ≤ k) :
    index tokens k = Except.error Panic.indexOutOfRange := by
  unfold index
  rw [List.get?_eq_getElem?, List.getElem?_eq_none h]

theorem lacksOperand_iff (line : List Char) : lacksOperand line ↔ ¬ operandsPresent line := by
  unfold lacksOperand operandsPresent
  constructor
  · rintro ⟨-, h | h | h⟩ hp
    · have := hp.1 h.1; omega
    · have := hp.2.1 h.1; omega
    · have := hp.2.2 h.1; omega
  · intro hp
    have hne : line ≠ [] := by
      rintro rfl
      apply hp
      refine ⟨fun h => ?_, fun h => ?_, fun h => ?_⟩ <;> exact absurd h (by decide)
    refine ⟨hne, ?_⟩
    by_contra hno
    apply hp
    refine ⟨fun h => ?_, fun h => ?_, fun h => ?_⟩
    · by_contra hlt; exact hno (Or.inl ⟨h, by omega⟩)
    · by_contra hlt; exact hno (Or.inr (Or.inl ⟨h, by omega⟩))
    · by_contra hlt; exact hno (Or.inr (Or.inr ⟨h, by omega⟩))

/-- One pass of the loop body on a line that lacks an operand token panics. -/
theorem assembleLine_panics (st : AsmState) (i : Nat) (line : List Char)
    (h : lacksOperand line) :
    assembleLine st i line = Except.error Panic.indexOutOfRange := by
  obtain ⟨hline, h⟩ := h
  have hlen : ¬ line.length = 0 := by simpa using hline
  have hpos : 0 < (tokensOf line).length := List.length_pos.2 (tokensOf_ne_nil line)
  unfold assembleLine
  rw [show List.splitOn ' ' line = tokensOf line from rfl]
  simp only [index_zero, bind, Except.bind, pure, Except.pure, hlen, if_false]
  rcases h with ⟨h1, hk⟩ | ⟨h2, hk⟩ | ⟨h3, hk⟩
  · simp only [h1, if_true, index_of_ge _ 1 (by omega : (tokensOf line).length ≤ 1)]
  · have h1 : ¬ firstToken line = "CONST".toList := by rw [h2]; decide
    have hs : ¬ firstToken line = "START".toList := by rw [h2]; decide
    simp only [h1, hs, if_false]
    simp only [h2, if_true]
    by_cases hk1 : (tokensOf line).length ≤ 1
    · simp only [index_of_ge _ 1 hk1]
    · simp only [index_of_lt _ 1 (by omega : 1 < (tokensOf line).length),
        index_of_ge _ 2 (by omega : (tokensOf line).length ≤ 2)]
  · have h1 : ¬ firstToken line = "CONST".toList := by rw [h3]; decide
    have hs : ¬ firstToken line = "START".toList := by rw [h3]; decide
    have h2 : ¬ firstToken line = "LOADC".toList := by rw [h3]; decide
    simp only [h1, hs, h2, if_false]
    simp only [h3, if_true]
    by_cases hk1 : (tokensOf line).length ≤ 1
    · simp only [index_of_ge _ 1 hk1]
    · simp only [index_of_lt _ 1 (by omega : 1 < (tokensOf line).length)]
      by_cases hk2 : (tokensOf line).length ≤ 2
      · simp only [index_of_ge _ 2 hk2]
      · simp only [index_of_lt _ 2 (by omega : 2 < (tokensOf line).length),
          index_of_ge _ 3 (by omega : (tokensOf line).length ≤ 3)]

theorem assembleLoop_panics (lines : List (List Char)) :
    ∀ (i : Nat) (st : AsmState), (∃ line ∈ lines, lacksOperand line) →
      assembleLoop lines i st = Except.error Panic.indexOutOfRange := by
  induction lines with
  | nil => rintro i st ⟨line, hl, -⟩; exact absurd hl (List.not_mem_nil _)
  | cons line rest ih =>
    rintro i st ⟨l, hl, hbad⟩
    by_cases hp : lacksOperand line
    · simp only [assembleLoop, assembleLine_panics st i line hp]
    · obtain ⟨st1, h1, -⟩ := assembleLine_output st i line
        (by by_contra hn; exact hp ((lacksOperand_iff line).2 hn))
      have hrest : ∃ line ∈ rest, lacksOperand line := by
        rcases List.mem_cons.1 hl with rfl | hl
        · exact absurd hbad hp
        · exact ⟨l, hl, hbad⟩
      simp only [assembleLoop, h1, ih (i + 1) st1 hrest]

theorem Assemble_panics (code : List Char)
    (h : ∃ line ∈ List.splitOn '\n' code, lacksOperand line) :
    Assemble code = Except.error Panic.indexOutOfRange := by
  simp only [Assemble, assembleLoop_panics _ 0 _ h]

/-! ## C1 -/

/-- C1: when every `CONST` line has an operand token, every `LOADC` line two and
every `ADD` line three, `Assemble` does not fail and returns a header word
followed by the words of the lines in source order, one word for each line whose
first token is `CONST`, `LOADC`, `ADD`, `DBG` or `HALT` and none for any other
line (empty, `START`, unrecognized); the result has one word more than there are
emitting lines. -/
theorem Assemble_header_then_words (code : List Char)
    (h : ∀ line ∈ List.splitOn '\n' code, operandsPresent line) :
    ∃ header,
      Assemble code = Except.ok (header :: (List.splitOn '\n' code).filterMap emittedWord) ∧
      (∀ line, (emittedWord line).isSome = true ↔
        firstToken line ∈ emittingMnemonics) ∧
      (header :: (List.splitOn '\n' code).filterMap emittedWord).length
        = 1 + (List.splitOn '\n' code).countP emits := by
  refine ⟨startAfter (List.splitOn '\n' code) 0 0 % 65536, Assemble_eq code h, ?_, ?_⟩
  · intro line
    rw [emits_iff_isSome]
    simp [emits]
  · rw [List.length_cons, length_filterMap_emittedWord]
    omega

/-- C1 on the program `CONST 7 / START / LOADC 0 0 / HALT`, which assembles to
`[2, 7, 0x1000, 0x0000]`. -/
theorem Assemble_header_then_words_witness :
    (∀ line ∈ List.splitOn '\n' "CONST 7\nSTART\nLOADC 0 0\nHALT".toList, operandsPresent line) ∧
    (∃ header,
      Assemble "CONST 7\nSTART\nLOADC 0 0\nHALT".toList
        = Except.ok (header ::
            (List.splitOn '\n' "CONST 7\nSTART\nLOADC 0 0\nHALT".toList).filterMap emittedWord) ∧
      (∀ line, (emittedWord line).isSome = true ↔
        firstToken line ∈ emittingMnemonics) ∧
      (header ::
        (List.splitOn '\n' "CONST 7\nSTART\nLOADC 0 0\nHALT".toList).filterMap emittedWord).length
        = 1 + (List.splitOn '\n' "CONST 7\nSTART\nLOADC 0 0\nHALT".toList).countP emits) ∧
    Assemble "CONST 7\nSTART\nLOADC 0 0\nHALT".toList = Except.ok [2, 7, 0x1000, 0x0000] :=
  ⟨by decide, Assemble_header_then_words _ (by decide), by decide⟩

/-! ## C2 -/

/-- C2 fails on the code: on `CONST 7 / (empty line) / START / LOADC 0 0 / HALT`
one word is emitted before the single `START` line, so the first word after
`START` sits at index 2 of the output, yet the header is 3, the line index of
`START` plus one; booted from it the machine fetches the `HALT` word first and
stops with `R0` still 0. -/
theorem Assemble_header_counts_lines :
    Assemble "CONST 7\n\nSTART\nLOADC 0 0\nHALT".toList = Except.ok [3, 7, 0x1000, 0x0000] ∧
    ((List.splitOn '\n' "CONST 7\n\nSTART\nLOADC 0 0\nHALT".toList).filter
      (fun line => firstToken line = "START".toList)).length = 1 ∧
    1 + ((List.splitOn '\n' "CONST 7\n\nSTART\nLOADC 0 0\nHALT".toList).take 2).countP emits = 2 ∧
    (run 1 (boot [3, 7, 0x1000, 0x0000])).status = Status.halted ∧
    (run 1 (boot [3, 7, 0x1000, 0x0000])).reg 0 = 0 := by
  decide

/-! ## C3 -/

/-- C3, amended: for `n` constants `vs` with `1 <= n <= 256`, each within the
range of a 64-bit `int` (`-2 ^ 63 <= v < 2 ^ 63`), every `j < n` and every
register index `r` from 0 to 7, the lines `CONST v` followed by `START`,
`LOADC r j`, `HALT` assemble to a program which, loaded into zeroed memory and
started at its header word, is halted after two passes of the loop (and stays
so for any larger budget) with `reg[r] = v_j mod 2 ^ 16` and every other
general-purpose register as it was at the start. -/
theorem const_load_end_to_end (vs : List Int) (r j : Nat)
    (hn1 : 1 ≤ vs.length) (hn2 : vs.length ≤ 256) (hj : j < vs.length) (hr : r < 8)
    (hv : ∀ v ∈ vs, -9223372036854775808 ≤ v ∧ v < 9223372036854775808) :
    ∃ program t, Assemble (constLoadSource vs r j) = Except.ok program ∧
      (∀ fuel, 2 ≤ fuel → run fuel (boot program) = t) ∧
      t.status = Status.halted ∧
      t.reg r = ((vs.getD j 0) % 2 ^ 16).toNat ∧
      ∀ q, q < 8 → q ≠ r → t.reg q = (boot program).reg q := by
  obtain ⟨t, hA, hrun, hst, hreg, hfr⟩ := constLoad_run vs r j hr (by omega) (by omega) hv
  refine ⟨_, t, hA, hrun, hst, ?_, hfr⟩
  obtain ⟨hget1, -⟩ := getD_program vs.length (vs.map uint16) [4096 + 512 * r + j, 0]
    (vs.length + 1) (by simp)
  rw [hreg, sign_extend_9 j (by omega), if_pos (by omega), Nat.mod_eq_of_lt (by omega),
    boot_memory _ (by simp; omega), if_pos (by simp; omega), hget1 j hj,
    List.getD_eq_getElem?_getD, List.getElem?_map, List.getD_eq_getElem?_getD,
    List.getElem?_eq_getElem hj]
  unfold uint16
  norm_num

/-- C3, amended, on `CONST 7 / START / LOADC 0 0 / HALT`: the run ends with
`R0 = 7`. -/
theorem const_load_end_to_end_witness :
    (1 ≤ [(7 : Int)].length ∧ [(7 : Int)].length ≤ 256 ∧ 0 < [(7 : Int)].length ∧ 0 < 8 ∧
      ∀ v ∈ [(7 : Int)], -9223372036854775808 ≤ v ∧ v < 9223372036854775808) ∧
    constLoadSource [7] 0 0 = "CONST 7\nSTART\nLOADC 0 0\nHALT".toList ∧
    ∃ program t, Assemble (constLoadSource [7] 0 0) = Except.ok program ∧
      (∀ fuel, 2 ≤ fuel → run fuel (boot program) = t) ∧
      t.status = Status.halted ∧
      t.reg 0 = 7 ∧
      ∀ q, q < 8 → q ≠ 0 → t.reg q = (boot program).reg q :=
  ⟨by decide, by decide,
    const_load_end_to_end [7] 0 0 (by decide) (by decide) (by decide) (by decide) (by decide)⟩

/-- C3 as stated fails for the constant `2 ^ 63`: `Atoi` answers the range error
with `2 ^ 63 - 1`, the word emitted for `CONST 9223372036854775808` is `0xFFFF`,
and no run of `CONST 9223372036854775808 / START / LOADC 0 0 / HALT` halts with
`R0 = 2 ^ 63 mod 2 ^ 16 = 0`. -/
theorem const_load_clamps :
    ¬ ∃ program fuel, Assemble (constLoadSource [9223372036854775808] 0 0) = Except.ok program ∧
      (run fuel (boot program)).status = Status.halted ∧
      (run fuel (boot program)).reg 0
        = (([(9223372036854775808 : Int)].getD 0 0) % 2 ^ 16).toNat := by
  rintro ⟨program, fuel, hA, hs, hr⟩
  have h : Assemble (constLoadSource [9223372036854775808] 0 0)
      = Except.ok [2, 0xFFFF, 0x1000, 0x0000] := by decide
  rw [h] at hA
  injection hA with hA
  subst hA
  have hv : (([(9223372036854775808 : Int)].getD 0 0) % 2 ^ 16).toNat = 0 := by decide
  rw [hv] at hr
  match fuel with
  | 0 => exact absurd hs (by decide)
  | 1 => exact absurd hs (by decide)
  | k + 2 =>
    have h1 : (boot [2, 0xFFFF, 0x1000, 0x0000]).status = Status.running := rfl
    have h2 : (step (boot [2, 0xFFFF, 0x1000, 0x0000])).status = Status.running := by decide
    have h3 : (step (step (boot [2, 0xFFFF, 0x1000, 0x0000]))).status ≠ Status.running := by
      decide
    rw [run_succ_of_running _ _ h1, run_succ_of_running _ _ h2, run_of_not_running _ _ h3] at hr
    exact absurd hr (by decide)

/-! ## C4 -/

/-- C4 fails on the code: the `LOADC` word with register 0 and `CONST9 = 256`
(`0x1100`) does not load constant slot 256, `physical[257]` (here 42); the
offset is sign-extended to `0xFF00` and the pass loads `physical[0xFF01]`
(here 7).  So it is in a run of the engine: the program of 257 lines
`CONST 42` followed by `START`, `LOADC 0 256`, `HALT` has 42 in slot 256 and
halts with `R0 = 0`. -/
theorem LOADC_slot_256_not_loaded :
    ((machine [(0, 0x1100), (257, 42), (0xFF01, 7)] []).memory
        ((machine [(0, 0x1100), (257, 42), (0xFF01, 7)] []).reg R_PC)
        = OP_LOADC <<< 12 ||| 0 <<< 9 ||| 256 ∧
      (machine [(0, 0x1100), (257, 42), (0xFF01, 7)] []).memory (256 + 1) = 42 ∧
      (step (machine [(0, 0x1100), (257, 42), (0xFF01, 7)] [])).reg 0 = 7 ∧
      (step (machine [(0, 0x1100), (257, 42), (0xFF01, 7)] [])).reg 0
        = (machine [(0, 0x1100), (257, 42), (0xFF01, 7)] []).memory 0xFF01) ∧
    ∃ program t, Assemble (constLoadSource (List.replicate 257 42) 0 256) = Except.ok program ∧
      (boot program).memory (256 + 1) = 42 ∧
      (∀ fuel, 2 ≤ fuel → run fuel (boot program) = t) ∧
      t.status = Status.halted ∧ t.reg 0 = 0 := by
  refine ⟨by decide, ?_⟩
  have hlen : (List.replicate 257 (42 : Int)).length = 257 := List.length_replicate _ _
  have hall : ∀ v ∈ List.replicate 257 (42 : Int),
      -9223372036854775808 ≤ v ∧ v < 9223372036854775808 := by
    intro v hv
    rw [List.eq_of_mem_replicate hv]
    decide
  have h256 : (List.replicate 257 (42 : Int))[256]? = some 42 := by
    rw [List.getElem?_eq_getElem (by rw [hlen]; decide), List.getElem_replicate]
  generalize List.replicate 257 (42 : Int) = vs at hlen hall h256
  obtain ⟨t, hA, hrun, hst, hreg, -⟩ := constLoad_run vs 0 256 (by decide) (by decide)
    (by omega) hall
  obtain ⟨hget1, -⟩ := getD_program vs.length (vs.map uint16) [4096 + 512 * 0 + 256, 0]
    (vs.length + 1) (by simp)
  have hPlen : ((vs.length + 1) :: (vs.map uint16 ++ [4096 + 512 * 0 + 256, 0])).length = 260 := by
    simp [hlen]
  refine ⟨_, t, hA, ?_, hrun, hst, ?_⟩
  · rw [boot_memory _ (by rw [hPlen]; decide), if_pos (by rw [hPlen]; decide),
      hget1 256 (by omega), List.getD_eq_getElem?_getD, List.getElem?_map, h256]
    rfl
  · rw [hreg, sign_extend_9 256 (by decide), if_neg (by decide),
      boot_memory _ (by rw [hPlen]; decide), if_neg (by rw [hPlen]; decide)]

/-! ## C5 -/

/-- C5, amended: for a register index `r` from 0 to 7 and an operand `v` from 0
to 255, the word `w` that `Assemble` emits for the line `LOADC r v` decodes back
to the same fields: `w >> 12` is `OP_LOADC`, `(w >> 9) & 0x7` is `r`, and
`sign_extend(w & 0x1FF, 9)` read as an `int16` is `v`. -/
theorem LOADC_round_trip (r : Nat) (v : Int) (hr : r < 8) (hv0 : 0 ≤ v) (hv1 : v ≤ 255) :
    ∃ w, Assemble (sourceLine "LOADC".toList [(r : Int), v]) = Except.ok [0, w] ∧
      w >>> 12 = OP_LOADC ∧ (w >>> 9) &&& 0x7 = r ∧
      int16 (sign_extend (w &&& 0x1FF) 9) = v := by
  obtain ⟨j, rfl⟩ := Int.eq_ofNat_of_zero_le hv0
  have hj : j < 256 := by omega
  refine ⟨4096 + 512 * r + j, Assemble_LOADC r j hr (by omega), ?_, ?_, ?_⟩
  · rw [Nat.shiftRight_eq_div_pow]; unfold OP_LOADC; omega
  · rw [and_7, Nat.shiftRight_eq_div_pow]; omega
  · rw [and_1FF, sign_extend_9 _ (Nat.mod_lt _ (by norm_num))]
    have : (4096 + 512 * r + j) % 512 = j := by omega
    rw [this, if_pos hj]
    unfold int16
    rw [if_pos (by omega)]

/-- C5, amended, on the line `LOADC 3 255`. -/
theorem LOADC_round_trip_witness :
    (3 < 8 ∧ (0 : Int) ≤ 255 ∧ (255 : Int) ≤ 255) ∧
    ∃ w, Assemble (sourceLine "LOADC".toList [((3 : Nat) : Int), 255]) = Except.ok [0, w] ∧
      w >>> 12 = OP_LOADC ∧ (w >>> 9) &&& 0x7 = 3 ∧
      int16 (sign_extend (w &&& 0x1FF) 9) = 255 :=
  ⟨by decide, LOADC_round_trip 3 255 (by decide) (by decide) (by decide)⟩

/-- C5 as stated fails on the line `LOADC 0 -1`: the operand is or-ed into the
word unmasked, the word is `0xFFFF`, and its top four bits are `0xF`, not
`OP_LOADC`. -/
theorem LOADC_round_trip_fails :
    ¬ ∃ w, Assemble (sourceLine "LOADC".toList [((0 : Nat) : Int), -1]) = Except.ok [0, w] ∧
      w >>> 12 = OP_LOADC ∧ (w >>> 9) &&& 0x7 = 0 ∧
      int16 (sign_extend (w &&& 0x1FF) 9) = -1 := by
  rintro ⟨w, hA, hop, -, -⟩
  have h : Assemble (sourceLine "LOADC".toList [((0 : Nat) : Int), -1]) = Except.ok [0, 0xFFFF] := by
    decide
  rw [h] at hA
  have hw : w = 0xFFFF := by
    injection hA with hA
    injection hA with _ hA
    injection hA with hA _
    exact hA.symm
  subst hw
  exact absurd hop (by decide)

/-! ## C6 -/

/-- C6: for register indices `r0`, `r1`, `r2` from 0 to 7, `Assemble` emits a
word `w` for the line `ADD r0 r1 r2`, and in every running machine that fetches
`w` one pass sets `reg[r0]` to `(reg[r1] + reg[r2]) mod 2 ^ 16` (both read
before the write), advances `PC` by one modulo `2 ^ 16`, and changes no other
register, no memory cell, nor the status or the output. -/
theorem ADD_assembled_and_executed (r0 r1 r2 : Nat) (h0 : r0 < 8) (h1 : r1 < 8) (h2 : r2 < 8) :
    ∃ w, Assemble (sourceLine "ADD".toList [(r0 : Int), (r1 : Int), (r2 : Int)])
        = Except.ok [0, w] ∧
      ∀ s : VM, s.status = Status.running → s.memory (s.reg R_PC) = w →
        (step s).reg r0 = (s.reg r1 + s.reg r2) % 2 ^ 16 ∧
        (step s).reg R_PC = (s.reg R_PC + 1) % 2 ^ 16 ∧
        (∀ r, r ≠ r0 → r ≠ R_PC → (step s).reg r = s.reg r) ∧
        (step s).memory = s.memory ∧ (step s).status = s.status ∧
        (step s).stdout = s.stdout := by
  refine ⟨24576 + 512 * r0 + 32 * r1 + r2, Assemble_ADD r0 r1 r2 h0 h1 h2, ?_⟩
  intro s hrun hw
  have hop : opcodeOf (24576 + 512 * r0 + 32 * r1 + r2) = OP_ADD := by
    unfold opcodeOf OP_ADD; omega
  have hdr : bits (24576 + 512 * r0 + 32 * r1 + r2) 11 9 = r0 := by
    unfold bits; norm_num; omega
  have hsr : bits (24576 + 512 * r0 + 32 * r1 + r2) 7 5 = r1 := by
    unfold bits; norm_num; omega
  have hfl : bits (24576 + 512 * r0 + 32 * r1 + r2) 8 8 = 0 := by
    unfold bits; norm_num; omega
  have hs2 : bits (24576 + 512 * r0 + 32 * r1 + r2) 2 0 = r2 := by
    unfold bits; norm_num; omega
  have h := frame_of_regWrite s (step s) _ _ (bits_11_9_ne_PC _)
    (by rw [step_running s hrun, hw, exec_arith _ s (Or.inl hop)
      (fun h => by rw [hop] at h; exact absurd h (by decide))])
  rw [hdr, hsr, hop] at h
  simpa [arithResult, arithOperandOf, hfl, hs2] using h

/-- C6 on the line `ADD 1 2 3`. -/
theorem ADD_assembled_and_executed_witness :
    (1 < 8 ∧ 2 < 8 ∧ 3 < 8) ∧
    ∃ w, Assemble (sourceLine "ADD".toList [((1 : Nat) : Int), ((2 : Nat) : Int), ((3 : Nat) : Int)])
        = Except.ok [0, w] ∧
      ∀ s : VM, s.status = Status.running → s.memory (s.reg R_PC) = w →
        (step s).reg 1 = (s.reg 2 + s.reg 3) % 2 ^ 16 ∧
        (step s).reg R_PC = (s.reg R_PC + 1) % 2 ^ 16 ∧
        (∀ r, r ≠ 1 → r ≠ R_PC → (step s).reg r = s.reg r) ∧
        (step s).memory = s.memory ∧ (step s).status = s.status ∧
        (step s).stdout = s.stdout :=
  ⟨by decide, ADD_assembled_and_executed 1 2 3 (by decide) (by decide) (by decide)⟩

/-! ## C7 -/

/-- C7: for a width `b` from 1 to 15 and a field value `x < 2 ^ b`,
`sign_extend x b` is a 16-bit word with the low `b` bits of `x`; read as an
`int16` it is `x` when `x < 2 ^ (b - 1)` and `x - 2 ^ b` otherwise; the bits
above the field are all set when bit `b - 1` of `x` is set and all clear when it
is not. -/
theorem sign_extend_twos_complement (b x : Nat) (hb1 : 1 ≤ b) (hb2 : b ≤ 15) (hx : x < 2 ^ b) :
    sign_extend x b < 65536 ∧
    sign_extend x b % 2 ^ b = x ∧
    int16 (sign_extend x b) = (if x < 2 ^ (b - 1) then (x : Int) else (x : Int) - 2 ^ b) ∧
    sign_extend x b / 2 ^ b = (if x < 2 ^ (b - 1) then 0 else 2 ^ (16 - b) - 1) := by
  rw [sign_extend_eq x b hb1 (by omega) hx]
  unfold int16
  interval_cases b <;> simp only [Nat.reducePow, Nat.reduceSub, Nat.reduceMul] at hx ⊢ <;>
    split_ifs <;> omega

/-- C7 on the 5-bit field `0b10000`: the extension is `0xFFF0`, that is `-16`. -/
theorem sign_extend_twos_complement_witness :
    (1 ≤ 5 ∧ 5 ≤ 15 ∧ 0b10000 < 2 ^ 5) ∧
    (sign_extend 0b10000 5 < 65536 ∧
      sign_extend 0b10000 5 % 2 ^ 5 = 0b10000 ∧
      int16 (sign_extend 0b10000 5)
        = (if 0b10000 < 2 ^ (5 - 1) then ((0b10000 : Nat) : Int) else ((0b10000 : Nat) : Int) - 2 ^ 5) ∧
      sign_extend 0b10000 5 / 2 ^ 5 = (if 0b10000 < 2 ^ (5 - 1) then 0 else 2 ^ (16 - 5) - 1)) ∧
    sign_extend 0b10000 5 = 0xFFF0 ∧ int16 0xFFF0 = -16 :=
  ⟨by decide, sign_extend_twos_complement 5 0b10000 (by decide) (by decide) (by decide),
    by decide, by decide⟩

/-! ## C8 -/

/-- C8: in a running machine whose fetched word `w` has opcode `ADD`, `SUB`,
`MUL` or `DIV` (for `DIV` with a non-zero divisor operand), one pass sets the
register named by bits 11 to 9 to `reg[SR1] op operand`, where `SR1` is bits 7
to 5, the operand is `sign_extend` of bits 4 to 0 when bit 8 is set and the
register named by bits 2 to 0 otherwise, and `op` is the sum, difference or
product modulo `2 ^ 16` or the floor quotient; `PC` advances by one modulo
`2 ^ 16`; no other register, no memory cell, nor the status or the output
changes. -/
theorem step_arith (s : VM) (w : Nat) (hrun : s.status = Status.running)
    (hw : s.memory (s.reg R_PC) = w)
    (hop : opcodeOf w = OP_ADD ∨ opcodeOf w = OP_SUB ∨ opcodeOf w = OP_MUL ∨ opcodeOf w = OP_DIV)
    (hdiv : opcodeOf w = OP_DIV → arithOperandOf w s ≠ 0) :
    (step s).reg (bits w 11 9)
      = arithResult (opcodeOf w) (s.reg (bits w 7 5)) (arithOperandOf w s) ∧
    (step s).reg R_PC = (s.reg R_PC + 1) % 2 ^ 16 ∧
    (∀ r, r ≠ bits w 11 9 → r ≠ R_PC → (step s).reg r = s.reg r) ∧
    (step s).memory = s.memory ∧ (step s).status = s.status ∧ (step s).stdout = s.stdout := by
  apply frame_of_regWrite s (step s) _ _ (bits_11_9_ne_PC w)
  rw [step_running s hrun, hw, exec_arith w s hop hdiv]

/-- C8 on `ADD R0, R1, -1` (word `0x613F`) with `R1 = 0`: `R0` becomes `0xFFFF`. -/
theorem step_arith_witness :
    ((machine [(0, 0x613F)] []).status = Status.running ∧
      (machine [(0, 0x613F)] []).memory ((machine [(0, 0x613F)] []).reg R_PC) = 0x613F ∧
      (opcodeOf 0x613F = OP_ADD ∨ opcodeOf 0x613F = OP_SUB ∨ opcodeOf 0x613F = OP_MUL
        ∨ opcodeOf 0x613F = OP_DIV) ∧
      (opcodeOf 0x613F = OP_DIV → arithOperandOf 0x613F (machine [(0, 0x613F)] []) ≠ 0)) ∧
    bits 0x613F 8 8 = 1 ∧ int16 (sign_extend (bits 0x613F 4 0) 5) = -1 ∧
    (machine [(0, 0x613F)] []).reg (bits 0x613F 7 5) = 0 ∧
    (step (machine [(0, 0x613F)] [])).reg (bits 0x613F 11 9) = 0xFFFF :=
  ⟨⟨rfl, by decide, by decide, by decide⟩, by decide, by decide, by decide,
    (step_arith (machine [(0, 0x613F)] []) 0x613F rfl (by decide) (by decide) (by decide)).1.trans
      (by decide)⟩

/-! ## C9 -/

/-- C9: in a running machine whose word `w`, fetched at address `a = PC`, has
opcode `EQ`, `LT` or `LE`, the test compares the register named by bits 11 to 9
with the operand (`sign_extend` of bits 7 to 0 when bit 8 is set, else the
register named by bits 2 to 0): equality for `EQ`, unsigned less-than for `LT`
and for `LE` alike.  After the pass `PC` is `a + 1` when the test is true and
`a + 2` when it is false, modulo `2 ^ 16`; no other register, no memory cell,
nor the status or the output changes. -/
theorem step_compare (s : VM) (w : Nat) (hrun : s.status = Status.running)
    (hw : s.memory (s.reg R_PC) = w)
    (hop : opcodeOf w = OP_EQ ∨ opcodeOf w = OP_LT ∨ opcodeOf w = OP_LE) :
    (step s).reg R_PC
      = (if cmpTest (opcodeOf w) (s.reg (bits w 11 9)) (cmpOperandOf w s) = true
          then (s.reg R_PC + 1) % 2 ^ 16 else (s.reg R_PC + 2) % 2 ^ 16) ∧
    (∀ r, r ≠ R_PC → (step s).reg r = s.reg r) ∧
    (step s).memory = s.memory ∧ (step s).status = s.status ∧ (step s).stdout = s.stdout := by
  apply skipUnless_frame
  rw [step_running s hrun, hw, exec_compare w s hop]

/-- C9 on `LE R0, R1` (word `0xD001`) with `R0 = R1 = 5`: the test `5 < 5` is
false and `PC` goes from 0 to 2. -/
theorem step_compare_witness :
    ((machine [(0, 0xD001)] [5, 5]).status = Status.running ∧
      (machine [(0, 0xD001)] [5, 5]).memory ((machine [(0, 0xD001)] [5, 5]).reg R_PC) = 0xD001 ∧
      (opcodeOf 0xD001 = OP_EQ ∨ opcodeOf 0xD001 = OP_LT ∨ opcodeOf 0xD001 = OP_LE)) ∧
    (step (machine [(0, 0xD001)] [5, 5])).reg R_PC = 2 :=
  ⟨⟨rfl, by decide, by decide⟩,
    (step_compare (machine [(0, 0xD001)] [5, 5]) 0xD001 rfl (by decide) (by decide)).1.trans
      (by decide)⟩

/-! ## C10 -/

/-- C10 fails on the code: on the register-mode word `LE R0, R1` (`0xD001`)
fetched at address 0 with `R0 = R1 = 5`, so that `reg[A] <= reg[B]`, the pass
leaves `PC = 2`: the next instruction is skipped.  So it is in a run of the
engine: in `START / CONST 53249 / CONST 24833 / HALT` the constants are the words
`LE R0, R1` and `ADD R0, R0, 1`; with `R0 = R1 = 0` the `ADD` is skipped and the
machine halts with `R0 = 0`. -/
theorem LE_skips_on_equal :
    ((machine [(0, 0xD001)] [5, 5]).memory ((machine [(0, 0xD001)] [5, 5]).reg R_PC) = 0xD001 ∧
      opcodeOf 0xD001 = OP_LE ∧ bits 0xD001 8 8 = 0 ∧
      (machine [(0, 0xD001)] [5, 5]).reg (bits 0xD001 11 9)
        ≤ (machine [(0, 0xD001)] [5, 5]).reg (bits 0xD001 2 0) ∧
      (step (machine [(0, 0xD001)] [5, 5])).reg R_PC
        = (machine [(0, 0xD001)] [5, 5]).reg R_PC + 2) ∧
    (Assemble "START\nCONST 53249\nCONST 24833\nHALT".toList
        = Except.ok [1, 0xD001, 0x6101, 0x0000] ∧
      (run 2 (boot [1, 0xD001, 0x6101, 0x0000])).status = Status.halted ∧
      (run 2 (boot [1, 0xD001, 0x6101, 0x0000])).reg R_PC = 4 ∧
      (run 2 (boot [1, 0xD001, 0x6101, 0x0000])).reg 0 = 0) := by
  decide

/-! ## C11 -/

/-- C11: in a running machine whose word `w`, fetched at address `a = PC`, has
opcode `JUMP`, with sign `s` = bit 11 and magnitude `o` = bits 9 to 0 (bit 10
plays no part), after one pass `PC` is `(a + 1 + o) mod 2 ^ 16` when `s = 0` and
`(a + 1 - o) mod 2 ^ 16` when `s = 1`; no other register, no memory cell, nor
the status or the output changes. -/
theorem step_JUMP (s : VM) (w : Nat) (hrun : s.status = Status.running)
    (hw : s.memory (s.reg R_PC) = w) (hop : opcodeOf w = OP_JUMP) :
    ((step s).reg R_PC : Int)
      = (if bits w 11 11 = 0 then ((s.reg R_PC : Int) + 1 + (bits w 9 0 : Nat)) % 2 ^ 16
         else ((s.reg R_PC : Int) + 1 - (bits w 9 0 : Nat)) % 2 ^ 16) ∧
    (∀ r, r ≠ R_PC → (step s).reg r = s.reg r) ∧
    (step s).memory = s.memory ∧ (step s).status = s.status ∧ (step s).stdout = s.stdout := by
  rw [step_running s hrun, hw, exec_JUMP w s hop]
  have ho : bits w 9 0 < 1024 := Nat.mod_lt _ (by norm_num)
  refine ⟨?_, ?_, rfl, rfl, rfl⟩
  · simp only [Function.update_same]
    split_ifs <;> omega
  · intro r hr
    simp [Function.update_noteq hr, incPC]

/-- C11 on the word `0x5805` (sign 1, offset 5) fetched at address 0: `PC` ends
five below its value after the increment, `(1 - 5) mod 2 ^ 16 = 65532`. -/
theorem step_JUMP_witness :
    ((machine [(0, 0x5805)] []).status = Status.running ∧
      (machine [(0, 0x5805)] []).memory ((machine [(0, 0x5805)] []).reg R_PC) = 0x5805 ∧
      opcodeOf 0x5805 = OP_JUMP) ∧
    bits 0x5805 11 11 = 1 ∧ bits 0x5805 9 0 = 5 ∧
    ((step (machine [(0, 0x5805)] [])).reg R_PC : Int) = (0 + 1 - 5) % 2 ^ 16 ∧
    (step (machine [(0, 0x5805)] [])).reg R_PC = 65532 :=
  ⟨⟨rfl, by decide, by decide⟩, by decide, by decide,
    (step_JUMP (machine [(0, 0x5805)] []) 0x5805 rfl (by decide) (by decide)).1.trans (by decide),
    by decide⟩

/-! ## C12 -/

/-- C12: in a running machine with 16-bit cells that fetches the word `w`, the
pass ends in the unknown-instruction exit if and only if the top four bits of
`w` are not one of the defined opcodes `OP_HALT` to `OP_DBG`, that is if and only
if they are `0xF`; and then the machine has stopped: a further pass, or any
number of them, changes nothing, and every register except `PC` and every
memory cell is as it was when the word was fetched. -/
theorem unknown_opcode_fault (s : VM) (w : Nat) (hwf : WF s) (hrun : s.status = Status.running)
    (hw : s.memory (s.reg R_PC) = w) :
    ((∃ op, (step s).status = Status.unknownInstruction op) ↔ bits w 15 12 ∉ definedOpcodes) ∧
    (bits w 15 12 ∉ definedOpcodes ↔ bits w 15 12 = 0xF) ∧
    ((∃ op, (step s).status = Status.unknownInstruction op) →
      step (step s) = step s ∧ (∀ fuel, run fuel (step s) = step s) ∧
      (∀ r, r ≠ R_PC → (step s).reg r = s.reg r) ∧ (step s).memory = s.memory) := by
  have h16 : w < 65536 := by rw [← hw]; exact hwf.1 _
  have hb := bits_15_12 w h16
  have hlt : opcodeOf w < 16 := by unfold opcodeOf; omega
  have hmem := mem_definedOpcodes (opcodeOf w)
  rw [hb]
  obtain ⟨-, hs⟩ := step_summary s w hrun hw
  refine ⟨?_, ?_, ?_⟩
  · rcases hs with ⟨h1, h2, -, -⟩ | ⟨h1, h2, -⟩ | ⟨h1, h2, -⟩
    · exact ⟨fun _ => by rw [hmem]; omega, fun _ => ⟨_, h1⟩⟩
    · refine ⟨fun ⟨op, h⟩ => ?_, fun h => absurd (hmem.2 (by rw [h2]; decide)) h⟩
      rw [h1] at h; exact absurd h (by simp)
    · refine ⟨fun ⟨op, h⟩ => ?_, fun h => absurd (hmem.2 h2) h⟩
      rcases h1 with h1 | h1 <;> rw [h1] at h <;> exact absurd h (by simp)
  · rw [hmem]; omega
  · rintro ⟨op, h⟩
    have hnr : (step s).status ≠ Status.running := by rw [h]; simp
    rcases hs with ⟨-, -, h3, h4⟩ | ⟨h1, -, -⟩ | ⟨h1, -, -⟩
    · exact ⟨step_of_not_running _ hnr, fun fuel => run_of_not_running fuel _ hnr, h3, h4⟩
    · rw [h1] at h; exact absurd h (by simp)
    · rcases h1 with h1 | h1 <;> rw [h1] at h <;> exact absurd h (by simp)

/-- C12 on the word `0xF123`: the pass ends in the unknown-instruction exit with
opcode `0xF`, and the machine stays there. -/
theorem unknown_opcode_fault_witness :
    (WF (machine [(0, 0xF123)] [4, 5]) ∧
      (machine [(0, 0xF123)] [4, 5]).status = Status.running ∧
      (machine [(0, 0xF123)] [4, 5]).memory ((machine [(0, 0xF123)] [4, 5]).reg R_PC) = 0xF123) ∧
    bits 0xF123 15 12 = 0xF ∧
    (step (machine [(0, 0xF123)] [4, 5])).status = Status.unknownInstruction 0xF ∧
    (∀ fuel, run fuel (step (machine [(0, 0xF123)] [4, 5])) = step (machine [(0, 0xF123)] [4, 5])) :=
  ⟨⟨WF_machine _ _ (by decide) (by decide), rfl, by decide⟩, by decide, by decide,
    ((unknown_opcode_fault (machine [(0, 0xF123)] [4, 5]) 0xF123
      (WF_machine _ _ (by decide) (by decide)) rfl (by decide)).2.2 ⟨0xF, by decide⟩).2.1⟩

/-! ## C13 -/

/-- C13: in a running machine with 16-bit cells that fetches a word `w` whose
top four bits are a defined opcode, the pass ends in a panic exactly when `w`
is a `DIV` word whose divisor operand (the sign-extended `IMM5`, or `reg[SR2]`)
is 0, and the panic is then the division by zero, never an index out of range;
otherwise the machine is running or halted after it.  Every index the pass
uses on `reg` is below `R_COUNT = 11` and every index it uses on `memory` is
below `MEMORY_MAX = 65536`. -/
theorem step_defined_except_div_zero (s : VM) (w : Nat) (hwf : WF s)
    (hrun : s.status = Status.running) (hw : s.memory (s.reg R_PC) = w)
    (hop : bits w 15 12 ∈ definedOpcodes) :
    ((∃ p, (step s).status = Status.panicked p)
      ↔ (opcodeOf w = OP_DIV ∧ arithOperandOf w s = 0)) ∧
    (∀ p, (step s).status = Status.panicked p → p = Panic.divideByZero) ∧
    (¬ (opcodeOf w = OP_DIV ∧ arithOperandOf w s = 0) →
      (step s).status = Status.running ∨ (step s).status = Status.halted) ∧
    (∀ r ∈ registerIndices w, r < R_COUNT) ∧
    (∀ a ∈ memoryIndices w s, a < MEMORY_MAX) := by
  have h16 : w < 65536 := by rw [← hw]; exact hwf.1 _
  rw [bits_15_12 w h16, mem_definedOpcodes] at hop
  obtain ⟨-, hs⟩ := step_summary s w hrun hw
  refine ⟨?_, ?_, ?_, ?_, ?_⟩
  · rcases hs with ⟨-, h2, -, -⟩ | ⟨h1, h2⟩ | ⟨h1, -, h3⟩
    · omega
    · exact ⟨fun _ => h2, fun _ => ⟨_, h1⟩⟩
    · refine ⟨fun ⟨p, h⟩ => ?_, fun h => absurd h h3⟩
      rcases h1 with h1 | h1 <;> rw [h1] at h <;> exact absurd h (by simp)
  · intro p h
    rcases hs with ⟨-, h2, -, -⟩ | ⟨h1, -⟩ | ⟨h1, -, -⟩
    · omega
    · rw [h1] at h; injection h with h; exact h.symm
    · rcases h1 with h1 | h1 <;> rw [h1] at h <;> exact absurd h (by simp)
  · intro hnz
    rcases hs with ⟨-, h2, -, -⟩ | ⟨-, h2⟩ | ⟨h1, -, -⟩
    · omega
    · exact absurd h2 hnz
    · exact h1
  · intro r hr
    unfold registerIndices at hr
    simp only [and_7, and_1] at hr
    unfold R_COUNT
    have e8 : R_PC = 8 := rfl
    have e10 : R_MAR = 10 := rfl
    rw [e8, e10] at hr
    split_ifs at hr <;> simp at hr <;> omega
  · intro a ha
    unfold memoryIndices at ha
    dsimp only at ha
    have hpc := hwf.2 R_PC
    have hmar := hwf.2 R_MAR
    have hM : MEMORY_MAX = 65536 := rfl
    rw [hM]
    split_ifs at ha <;> simp at ha <;> omega

/-- C13 on `DIV R0, R0, R1` (word `0x9001`) with `R0 = 6`, `R1 = 0`: the pass
ends in the division-by-zero panic. -/
theorem step_defined_except_div_zero_witness :
    (WF (machine [(0, 0x9001)] [6]) ∧
      (machine [(0, 0x9001)] [6]).status = Status.running ∧
      (machine [(0, 0x9001)] [6]).memory ((machine [(0, 0x9001)] [6]).reg R_PC) = 0x9001 ∧
      bits 0x9001 15 12 ∈ definedOpcodes) ∧
    opcodeOf 0x9001 = OP_DIV ∧ arithOperandOf 0x9001 (machine [(0, 0x9001)] [6]) = 0 ∧
    (step (machine [(0, 0x9001)] [6])).status = Status.panicked Panic.divideByZero ∧
    (∀ p, (step (machine [(0, 0x9001)] [6])).status = Status.panicked p
      → p = Panic.divideByZero) :=
  ⟨⟨WF_machine _ _ (by decide) (by decide), rfl, by decide, by decide⟩, by decide, by decide,
    by decide,
    (step_defined_except_div_zero (machine [(0, 0x9001)] [6]) 0x9001
      (WF_machine _ _ (by decide) (by decide)) rfl (by decide) (by decide)).2.1⟩

/-! ## C14 -/

/-- C14 fails on the code: in the program `START / CONST 24833 / CONST 16385 /
CONST 12801 / HALT` the constants are the words `ADD R0, R0, 1`, `STOREM R0, 1`
and `LOADM R1, 1`.  With `MAR = 0x1007` the `STOREM` leaves `physical[0x1008]`
at 0 and writes `R0 = 1` to `physical[0x1007]`, so the `LOADM` with the same
offset reads 0 into `R1`. -/
theorem STOREM_ignores_offset :
    (Assemble "START\nCONST 24833\nCONST 16385\nCONST 12801\nHALT".toList
        = Except.ok [1, 0x6101, 0x4001, 0x3201, 0x0000] ∧
      opcodeOf 0x4001 = OP_STOREM ∧ bits 0x4001 11 9 = 0 ∧ bits 0x4001 8 0 = 1 ∧
      opcodeOf 0x3201 = OP_LOADM ∧ bits 0x3201 11 9 = 1 ∧ bits 0x3201 8 0 = 1) ∧
    (run 4 (boot [1, 0x6101, 0x4001, 0x3201, 0x0000])).status = Status.halted ∧
    (run 4 (boot [1, 0x6101, 0x4001, 0x3201, 0x0000])).reg R_MAR = 0x1007 ∧
    (run 4 (boot [1, 0x6101, 0x4001, 0x3201, 0x0000])).reg 0 = 1 ∧
    (run 4 (boot [1, 0x6101, 0x4001, 0x3201, 0x0000])).memory (0x1007 + 1) = 0 ∧
    (run 4 (boot [1, 0x6101, 0x4001, 0x3201, 0x0000])).memory 0x1007 = 1 ∧
    (run 4 (boot [1, 0x6101, 0x4001, 0x3201, 0x0000])).reg 1 = 0 := by
  decide

/-! ## C15 -/

/-- C15: in a running machine that fetches the word `w` with register field
`r` = bits 11 to 9 and offset field `k` = bits 8 to 0: if `w` is a `LOADM` word,
one pass sets `reg[r]` to `physical[(MAR + sign_extend(k, 9)) mod 2 ^ 16]` and
changes no memory cell; if `w` is a `STOREM` word, one pass sets `physical[MAR]`
to `reg[r]`, whatever `k` is, and leaves every other memory cell and every
register except `PC` as they were. -/
theorem step_mapped (s : VM) (w : Nat) (hrun : s.status = Status.running)
    (hw : s.memory (s.reg R_PC) = w) :
    (opcodeOf w = OP_LOADM →
      (step s).reg (bits w 11 9)
        = s.memory ((s.reg R_MAR + sign_extend (bits w 8 0) 9) % 2 ^ 16) ∧
      (step s).memory = s.memory) ∧
    (opcodeOf w = OP_STOREM →
      (step s).memory (s.reg R_MAR) = s.reg (bits w 11 9) ∧
      (∀ a, a ≠ s.reg R_MAR → (step s).memory a = s.memory a) ∧
      (∀ r, r ≠ R_PC → (step s).reg r = s.reg r)) := by
  constructor
  · intro hop
    obtain ⟨h1, -, -, h4, -, -⟩ := frame_of_regWrite s (step s) _ _ (bits_11_9_ne_PC w)
      (by rw [step_running s hrun, hw, exec_LOADM w s hop])
    exact ⟨h1, h4⟩
  · intro hop
    rw [step_running s hrun, hw, exec_STOREM w s hop]
    refine ⟨by simp, ?_, ?_⟩
    · intro a ha
      simp [Function.update_noteq ha]
    · intro r hr
      simp [incPC, Function.update_noteq hr]

/-- C15 on `STOREM R0, 1` (word `0x4001`) with `R0 = 7` and `MAR = 20`: the
pass writes 7 to `physical[20]` and leaves `physical[21]` at 0. -/
theorem step_mapped_witness :
    ((machine [(0, 0x4001)] [7, 0, 0, 0, 0, 0, 0, 0, 0, 0, 20]).status = Status.running ∧
      (machine [(0, 0x4001)] [7, 0, 0, 0, 0, 0, 0, 0, 0, 0, 20]).memory
        ((machine [(0, 0x4001)] [7, 0, 0, 0, 0, 0, 0, 0, 0, 0, 20]).reg R_PC) = 0x4001) ∧
    opcodeOf 0x4001 = OP_STOREM ∧ bits 0x4001 8 0 = 1 ∧
    (machine [(0, 0x4001)] [7, 0, 0, 0, 0, 0, 0, 0, 0, 0, 20]).reg R_MAR = 20 ∧
    (step (machine [(0, 0x4001)] [7, 0, 0, 0, 0, 0, 0, 0, 0, 0, 20])).memory 20 = 7 ∧
    (step (machine [(0, 0x4001)] [7, 0, 0, 0, 0, 0, 0, 0, 0, 0, 20])).memory 21 = 0 :=
  ⟨⟨rfl, by decide⟩, by decide, by decide, by decide,
    ((step_mapped (machine [(0, 0x4001)] [7, 0, 0, 0, 0, 0, 0, 0, 0, 0, 20]) 0x4001 rfl
      (by decide)).2 (by decide)).1.trans (by decide),
    by decide⟩

/-! ## C16 -/

/-- C16 fails on the code: for the four-word program of `CONST 7`, `START`,
`LOADC 0 0`, `HALT` the state before the first fetch has the program in the cells
0..3, `COND = FL_ZRO` and `PC = physical[0]`, but `MAR` is the constant `0x1007` of
`main`, not the length 4 of the program. -/
theorem boot_MAR_is_constant :
    Assemble "CONST 7\nSTART\nLOADC 0 0\nHALT".toList = Except.ok [2, 7, 0x1000, 0x0000] ∧
    (∀ i, i < [2, 7, 0x1000, 0x0000].length →
      (boot [2, 7, 0x1000, 0x0000]).memory i = [2, 7, 0x1000, 0x0000].getD i 0) ∧
    (boot [2, 7, 0x1000, 0x0000]).reg R_COND = FL_ZRO ∧
    (boot [2, 7, 0x1000, 0x0000]).reg R_PC = (boot [2, 7, 0x1000, 0x0000]).memory 0 ∧
    (boot [2, 7, 0x1000, 0x0000]).reg R_MAR = 0x1007 ∧
    (boot [2, 7, 0x1000, 0x0000]).reg R_MAR ≠ [2, 7, 0x1000, 0x0000].length := by
  decide

/-! ## C17 -/

/-- C17: in a running machine with 16-bit cells whose fetched word `w` has
opcode `NOT`, with `DR` = bits 11 to 9 and `SR` = bits 8 to 6, one pass sets
`reg[DR]` to the 16-bit complement `0xFFFF - reg[SR]`, advances `PC` by one
modulo `2 ^ 16` and changes nothing else; and when `DR = SR` and the next word
is `w` again, two passes restore `reg[DR]`. -/
theorem step_NOT (s : VM) (w : Nat) (hwf : WF s) (hrun : s.status = Status.running)
    (hw : s.memory (s.reg R_PC) = w) (hop : opcodeOf w = OP_NOT) :
    (step s).reg (bits w 11 9) = 0xFFFF - s.reg (bits w 8 6) ∧
    (step s).reg R_PC = (s.reg R_PC + 1) % 2 ^ 16 ∧
    (∀ r, r ≠ bits w 11 9 → r ≠ R_PC → (step s).reg r = s.reg r) ∧
    (step s).memory = s.memory ∧ (step s).status = s.status ∧ (step s).stdout = s.stdout ∧
    (bits w 11 9 = bits w 8 6 → s.memory ((s.reg R_PC + 1) % 2 ^ 16) = w →
      (step (step s)).reg (bits w 11 9) = s.reg (bits w 11 9)) := by
  have hx := hwf.2 (bits w 8 6)
  obtain ⟨h1, h2, h3, h4, h5, h6⟩ := frame_of_regWrite s (step s) _ _ (bits_11_9_ne_PC w)
    (by rw [step_running s hrun, hw, exec_NOT w s hop])
  rw [xor_FFFF _ hx] at h1
  refine ⟨h1, h2, h3, h4, h5, h6, ?_⟩
  intro hsame hnext
  have hrun1 : (step s).status = Status.running := by rw [h5, hrun]
  have hw1 : (step s).memory ((step s).reg R_PC) = w := by rw [h4, h2, hnext]
  obtain ⟨k1, -⟩ := frame_of_regWrite (step s) (step (step s)) _ _ (bits_11_9_ne_PC w)
    (by rw [step_running (step s) hrun1, hw1, exec_NOT w (step s) hop])
  have e1 : (step s).reg (bits w 8 6) = 0xFFFF - s.reg (bits w 8 6) := by
    rw [hsame] at h1; exact h1
  rw [k1, e1, xor_FFFF _ (by omega), hsame]
  omega

/-- C17 on `NOT R0, R0` (word `0xA000`) at addresses 0 and 1 with
`R0 = 0x00FF`: one pass gives `0xFF00`, two give `0x00FF` back. -/
theorem step_NOT_witness :
    (WF (machine [(0, 0xA000), (1, 0xA000)] [0x00FF]) ∧
      (machine [(0, 0xA000), (1, 0xA000)] [0x00FF]).status = Status.running ∧
      (machine [(0, 0xA000), (1, 0xA000)] [0x00FF]).memory
        ((machine [(0, 0xA000), (1, 0xA000)] [0x00FF]).reg R_PC) = 0xA000 ∧
      opcodeOf 0xA000 = OP_NOT) ∧
    (step (machine [(0, 0xA000), (1, 0xA000)] [0x00FF])).reg (bits 0xA000 11 9) = 0xFF00 ∧
    (step (step (machine [(0, 0xA000), (1, 0xA000)] [0x00FF]))).reg (bits 0xA000 11 9) = 0x00FF :=
  ⟨⟨WF_machine _ _ (by decide) (by decide), rfl, by decide, by decide⟩,
    (step_NOT (machine [(0, 0xA000), (1, 0xA000)] [0x00FF]) 0xA000
      (WF_machine _ _ (by decide) (by decide)) rfl (by decide) (by decide)).1.trans (by decide),
    by decide⟩

/-! ## C18 -/

/-- C18: in a running machine whose fetched word `w` has opcode `MOVE`, with
source register bits 11 to 9 and destination register bits 8 to 6, one pass sets
`reg[dst]` to the old `reg[src]`, leaves `reg[src]` and every register other
than `reg[dst]` and `PC` (so every other general-purpose register, `COND` and
`MAR`) as they were, advances `PC` by one modulo `2 ^ 16`, and changes no memory
cell, nor the status or the output. -/
theorem step_MOVE (s : VM) (w : Nat) (hrun : s.status = Status.running)
    (hw : s.memory (s.reg R_PC) = w) (hop : opcodeOf w = OP_MOVE) :
    (step s).reg (bits w 8 6) = s.reg (bits w 11 9) ∧
    (step s).reg (bits w 11 9) = s.reg (bits w 11 9) ∧
    (step s).reg R_PC = (s.reg R_PC + 1) % 2 ^ 16 ∧
    (∀ r, r ≠ bits w 8 6 → r ≠ R_PC → (step s).reg r = s.reg r) ∧
    (step s).memory = s.memory ∧ (step s).status = s.status ∧ (step s).stdout = s.stdout := by
  have hd : bits w 8 6 ≠ R_PC := by
    have h : bits w 8 6 < 8 := bits_lt_8 w 6
    unfold R_PC; omega
  obtain ⟨h1, h2, h3, h4, h5, h6⟩ := frame_of_regWrite s (step s) _ _ hd
    (by rw [step_running s hrun, hw, exec_MOVE w s hop])
  refine ⟨h1, ?_, h2, h3, h4, h5, h6⟩
  by_cases h : bits w 11 9 = bits w 8 6
  · rw [h] at h1 ⊢; exact h1
  · exact h3 _ h (bits_11_9_ne_PC w)

/-- C18 on `MOVE R1, R2` (word `0x2280`) with `R1 = 9`: `R2` becomes 9. -/
theorem step_MOVE_witness :
    ((machine [(0, 0x2280)] [0, 9]).status = Status.running ∧
      (machine [(0, 0x2280)] [0, 9]).memory ((machine [(0, 0x2280)] [0, 9]).reg R_PC) = 0x2280 ∧
      opcodeOf 0x2280 = OP_MOVE) ∧
    bits 0x2280 11 9 = 1 ∧ bits 0x2280 8 6 = 2 ∧
    (step (machine [(0, 0x2280)] [0, 9])).reg (bits 0x2280 8 6) = 9 :=
  ⟨⟨rfl, by decide, by decide⟩, by decide, by decide,
    (step_MOVE (machine [(0, 0x2280)] [0, 9]) 0x2280 rfl (by decide) (by decide)).1.trans
      (by decide)⟩

/-! ## C19 -/

/-- C19: every pass of the loop, from any state, leaves the registers from
index 9 on, so `COND` and `MAR`, as they were, and changes no memory cell at an
address other than `MAR`: it writes only `R0` to `R7`, `PC` and
`physical[MAR]`.  Hence after any number of passes from the initial state of a
loaded program `COND` is `FL_ZRO`, `MAR` has its initial value, and every
memory cell at an address other than `MAR` holds what the loader put there. -/
theorem frame_of_every_pass (s : VM) (program : List Nat) (fuel : Nat) :
    ((∀ r, 9 ≤ r → (step s).reg r = s.reg r) ∧
      (step s).reg R_COND = s.reg R_COND ∧ (step s).reg R_MAR = s.reg R_MAR ∧
      ∀ a, a ≠ s.reg R_MAR → (step s).memory a = s.memory a) ∧
    ((run fuel (boot program)).reg R_COND = FL_ZRO ∧
      (run fuel (boot program)).reg R_MAR = (boot program).reg R_MAR ∧
      ∀ a, a ≠ (boot program).reg R_MAR →
        (run fuel (boot program)).memory a = (boot program).memory a) := by
  obtain ⟨h1, h2⟩ := step_keeps s
  obtain ⟨k1, k2⟩ := run_keeps fuel (boot program)
  exact ⟨⟨h1, h1 _ (by decide), h1 _ (by decide), h2⟩,
    by rw [k1 _ (by decide), boot_reg_COND], k1 _ (by decide), k2⟩

/-! ## C20 -/

/-- C20 as stated fails on the text of 65536 lines `CONST 4096`, which has no
`START` line: the header word of the output is 0, but the program has 65537 words,
`load_into_memory` stores its last word at `uint16(65536) = 0`, over the header, so
the engine starts with `PC = 4096`, fetches a `LOADC` word, keeps running and sets
R0 to 4096. -/
theorem no_START_long_program :
    (∀ line ∈ List.splitOn '\n' (constSource (List.replicate 65536 4096)),
      firstToken line ≠ "START".toList) ∧
    ∃ program, Assemble (constSource (List.replicate 65536 4096)) = Except.ok program ∧
      program.head? = some 0 ∧
      (boot program).reg R_PC = 4096 ∧
      (step (boot program)).status = Status.running ∧
      (step (boot program)).reg 0 = 4096 ∧ (boot program).reg 0 = 0 := by
  have hrep : List.replicate 65536 (4096 : Int) = List.replicate 65535 4096 ++ [4096] :=
    List.replicate_succ' 65535 4096
  rw [hrep]
  have hlen : (List.replicate 65535 (4096 : Int)).length = 65535 := List.length_replicate _ _
  have hall : ∀ v ∈ List.replicate 65535 (4096 : Int), v = 4096 :=
    fun v hv => List.eq_of_mem_replicate hv
  generalize List.replicate 65535 (4096 : Int) = vs at hlen hall
  obtain ⟨hA, hpc, hst, hr0⟩ := long_constSource vs hlen hall
  exact ⟨(constSource_no_START _ (by simp)).2, _, hA, rfl, hpc, hst, hr0,
    boot_reg_lt_8 _ 0 (by decide)⟩

/-- C20, amended: for every source text without a `START` line that assembles to
a program of at most 65536 words, the header word is 0, the engine starts with
`PC = 0`, fetches the header word `0x0000`, decodes it as `HALT` and stops after
that one pass with `PC = 1`, every other register and all memory unchanged; the
loop makes no further pass. -/
theorem no_START_halts_on_header (code : List Char) (program : List Nat)
    (hno : ∀ line ∈ List.splitOn '\n' code, firstToken line ≠ "START".toList)
    (hA : Assemble code = Except.ok program) (hlen : program.length ≤ 65536) :
    program.head? = some 0 ∧
    (boot program).reg R_PC = 0 ∧ (boot program).memory 0 = 0x0000 ∧
    (step (boot program)).status = Status.halted ∧
    (step (boot program)).reg R_PC = 1 ∧
    (∀ r, r ≠ R_PC → (step (boot program)).reg r = (boot program).reg r) ∧
    (step (boot program)).memory = (boot program).memory ∧
    (∀ fuel, 1 ≤ fuel → run fuel (boot program) = step (boot program)) := by
  obtain ⟨output, hP⟩ := Assemble_header code program hA
  rw [startAfter_no_START _ hno] at hP
  have hm0 : (boot program).memory 0 = 0 := by
    rw [boot_memory program hlen, hP]
    simp
  have hpc : (boot program).reg R_PC = 0 := by rw [boot_reg_PC, hm0]
  obtain ⟨h1, h2, h3, h4, -⟩ := step_HALT (boot program) 0 (boot_status program)
    (by rw [hpc, hm0]) rfl
  refine ⟨by rw [hP]; rfl, hpc, hm0, h1, by rw [h2, hpc]; rfl, h3, h4, ?_⟩
  intro fuel hfuel
  obtain ⟨k, rfl⟩ : ∃ k, fuel = k + 1 := ⟨fuel - 1, by omega⟩
  rw [run_succ_of_running _ _ (boot_status program),
    run_of_not_running _ _ (by rw [h1]; decide)]

/-- C20, amended, on the text `CONST 7`, `LOADC 0 0`, `HALT`: the `LOADC` is never
executed and R0 keeps the value 0. -/
theorem no_START_halts_on_header_witness :
    ((∀ line ∈ List.splitOn '\n' "CONST 7\nLOADC 0 0\nHALT".toList,
        firstToken line ≠ "START".toList) ∧
      Assemble "CONST 7\nLOADC 0 0\nHALT".toList = Except.ok [0, 7, 0x1000, 0x0000] ∧
      [0, 7, 0x1000, 0x0000].length ≤ 65536) ∧
    (boot [0, 7, 0x1000, 0x0000]).reg R_PC = 0 ∧
    (step (boot [0, 7, 0x1000, 0x0000])).status = Status.halted ∧
    (step (boot [0, 7, 0x1000, 0x0000])).reg R_PC = 1 ∧
    (step (boot [0, 7, 0x1000, 0x0000])).reg 0 = 0 :=
  have h := no_START_halts_on_header "CONST 7\nLOADC 0 0\nHALT".toList [0, 7, 0x1000, 0x0000]
    (by decide) (by decide) (by decide)
  ⟨⟨by decide, by decide, by decide⟩, h.2.1, h.2.2.2.1, h.2.2.2.2.1, by decide⟩

/-! ## C21 -/

/-- C21: `Assemble` ends in the index-out-of-range panic if and only if some
line of the text, split on single spaces, is non-empty and has first token `CONST`
with fewer than 2 tokens, `LOADC` with fewer than 3 tokens or `ADD` with fewer than
4 tokens; it returns a word sequence if and only if there is no such line, and the
sequence is then the header followed by the words of the lines. -/
theorem Assemble_aborts_iff (code : List Char) :
    (Assemble code = Except.error Panic.indexOutOfRange
      ↔ ∃ line ∈ List.splitOn '\n' code, lacksOperand line) ∧
    ((∃ program, Assemble code = Except.ok program)
      ↔ ¬ ∃ line ∈ List.splitOn '\n' code, lacksOperand line) ∧
    ((¬ ∃ line ∈ List.splitOn '\n' code, lacksOperand line) →
      Assemble code = Except.ok ((startAfter (List.splitOn '\n' code) 0 0 % 65536) ::
        (List.splitOn '\n' code).filterMap emittedWord)) := by
  have hok : (¬ ∃ line ∈ List.splitOn '\n' code, lacksOperand line) →
      Assemble code = Except.ok ((startAfter (List.splitOn '\n' code) 0 0 % 65536) ::
        (List.splitOn '\n' code).filterMap emittedWord) := by
    intro hno
    apply Assemble_eq
    intro line hl
    by_contra hn
    exact hno ⟨line, hl, (lacksOperand_iff line).2 hn⟩
  refine ⟨⟨fun he => ?_, Assemble_panics code⟩, ⟨?_, fun hno => ⟨_, hok hno⟩⟩, hok⟩
  · by_contra hno
    rw [hok hno] at he
    exact absurd he (by simp)
  · rintro ⟨program, hp⟩ hbad
    rw [Assemble_panics code hbad] at hp
    exact absurd hp (by simp)

/-- C21 on three texts with an unrecognized mnemonic and non-numeric operands:
`LOADC 1` and a bare `ADD` make `Assemble` panic; with `ADD` followed by three
spaces (four tokens) it returns the words of `CONST x`, `LOADC a b` and `ADD`. -/
theorem Assemble_aborts_iff_witness :
    Assemble "FOO 1\nCONST x\nLOADC 1".toList = Except.error Panic.indexOutOfRange ∧
    Assemble "FOO 1\n\nCONST x\nLOADC a b\nADD".toList = Except.error Panic.indexOutOfRange ∧
    Assemble "FOO 1\n\nCONST x\nLOADC a b\nADD   ".toList
      = Except.ok [0, 0x0000, 0x1000, 0x6000] :=
  ⟨(Assemble_aborts_iff "FOO 1\nCONST x\nLOADC 1".toList).1.2
      ⟨"LOADC 1".toList, by decide, by decide⟩,
    (Assemble_aborts_iff "FOO 1\n\nCONST x\nLOADC a b\nADD".toList).1.2
      ⟨"ADD".toList, by decide, by decide⟩,
    ((Assemble_aborts_iff "FOO 1\n\nCONST x\nLOADC a b\nADD   ".toList).2.2
      (by decide)).trans (by decide)⟩

end SimpleVM
